import Mathlib

/-!
# Verification of the i18n key resolution and translation store engine

Shallow embedding of the core of the `i18n-integration-tool` repository:
the key generator (transliteration / slugification / truncation /
confidence scoring), the key validator (rule checking and normalization),
the duplicate detector, the key manager pipeline, the store-level duplicate
value detector, the JSON translation store reader and the backup system.

Strings are embedded as `List Char`; JavaScript string methods are
translated to explicit list transformations.  Numeric confidence scores use
`ℚ` (the JS constants 0.5, 0.3, 0.1, 0.2 are exact decimal fractions).
JS regular-expression character classes are translated to decidable
character predicates; the `\s` class is modelled by the ASCII whitespace
characters that occur in the tool's input domain (source code text).
-/

namespace I18n

/-- Keys and texts are lists of characters (JS strings). -/
abbrev LStr := List Char

/-- ASCII whitespace, modelling the JS regex class `\s` on this tool's
input domain. -/
def isJsSpace (c : Char) : Bool :=
  c = ' ' || c = '\t' || c = '\n' || c = '\r'

/-- Characters allowed by the validator rule `/^[a-z0-9_]+$/`
(`DEFAULT_KEY_RULES.allowedCharacters`). -/
def isKeyChar (c : Char) : Bool :=
  ('a' ≤ c && c ≤ 'z') || ('0' ≤ c && c ≤ '9') || c = '_'

/-- Lower-case Latin letters and ASCII digits (`[a-z0-9]`). -/
def isLowerAlnum (c : Char) : Bool :=
  ('a' ≤ c && c ≤ 'z') || ('0' ≤ c && c ≤ '9')

/-- ASCII digits `[0-9]`. -/
def isDigitChar (c : Char) : Bool :=
  '0' ≤ c && c ≤ '9'

/-- JS `Math.min` on rationals. -/
def jsMin (a b : ℚ) : ℚ := if a ≤ b then a else b

/-- JS `Math.max` on rationals. -/
def jsMax (a b : ℚ) : ℚ := if a ≤ b then b else a

/-- The JS regex class `\w` = `[A-Za-z0-9_]`. -/
def isWordChar (c : Char) : Bool :=
  ('a' ≤ c && c ≤ 'z') || ('A' ≤ c && c ≤ 'Z') || ('0' ≤ c && c ≤ '9') || c = '_'

/-- Membership in the Arabic-script Unicode blocks kept by the tool's
normalization regexes: `؀-ۿ`, `ݐ-ݿ`, `ࢠ-ࣿ`,
`ﭐ-﷿`, `ﹰ-﻿`. -/
def isArabicScript (c : Char) : Bool :=
  (0x600 ≤ c.toNat && c.toNat ≤ 0x6FF) ||
  (0x750 ≤ c.toNat && c.toNat ≤ 0x77F) ||
  (0x8A0 ≤ c.toNat && c.toNat ≤ 0x8FF) ||
  (0xFB50 ≤ c.toNat && c.toNat ≤ 0xFDFF) ||
  (0xFE70 ≤ c.toNat && c.toNat ≤ 0xFEFF)

/-- Characters kept by `/[^؀-ۿݐ-ݿࢠ-ࣿﭐ-﷿ﹰ-﻿\s\w]/g`
removal (used by `KeyGenerator.normalizeText` and
`DuplicateDetector.normalizeValue`). -/
def keepNormChar (c : Char) : Bool :=
  isArabicScript c || isJsSpace c || isWordChar c

/-- JS `String.prototype.trim` (restricted to the modelled whitespace). -/
def jsTrim (l : LStr) : LStr :=
  ((l.dropWhile fun c => isJsSpace c).reverse.dropWhile fun c => isJsSpace c).reverse

/-- JS `.replace(/\s+/g, ' ')`: collapse every maximal whitespace run to a
single space. -/
def collapseWs : LStr → LStr
  | [] => []
  | [c] => [if isJsSpace c then ' ' else c]
  | c :: d :: rest =>
    if isJsSpace c && isJsSpace d then collapseWs (d :: rest)
    else (if isJsSpace c then ' ' else c) :: collapseWs (d :: rest)

/-- JS `.replace(/_{2,}/g, '_')`: collapse every maximal run of two or more
underscores to a single underscore. -/
def collapseUnd : LStr → LStr
  | [] => []
  | [c] => [c]
  | c :: d :: rest =>
    if c = '_' && d = '_' then collapseUnd (d :: rest)
    else c :: collapseUnd (d :: rest)

/-- JS `.replace(/^_+|_+$/g, '')`: strip the leading and the trailing run of
underscores. -/
def trimUnd (l : LStr) : LStr :=
  ((l.dropWhile fun c => c = '_').reverse.dropWhile fun c => c = '_').reverse

/-- JS `.replace(/^_|_$/g, '')`: strip one leading and one trailing
underscore (single, not `+` — as written in `createSemanticKey`,
`generateAlternatives` and `generateContextualSuffix`). -/
def trimOneUnd (l : LStr) : LStr :=
  let l1 := match l with
    | '_' :: rest => rest
    | other => other
  match l1.reverse with
  | '_' :: rest => rest.reverse
  | _ => l1

/-- Decimal digit character. -/
def digitChar (n : Nat) : Char := Char.ofNat (48 + n)

/-- Decimal representation of a natural number (JS number-to-string for the
counters appearing in generated key suffixes). -/
def natDigits (n : Nat) : LStr :=
  if _hn : n < 10 then [digitChar n]
  else natDigits (n / 10) ++ [digitChar (n % 10)]
  decreasing_by exact Nat.div_lt_self (by omega) (by norm_num)

/-- Numeric-suffix candidate `key_n`. -/
def candKey (k : LStr) (n : Nat) : LStr := k ++ '_' :: natDigits n

/-- The test `/^_+$/.test(k)` (key made only of underscores). -/
def allUnd (l : LStr) : Bool := !l.isEmpty && l.all fun c => c = '_'

/-- The test `/^[0-9]+$/.test(k)` (key made only of digits). -/
def allDigits (l : LStr) : Bool := !l.isEmpty && l.all isDigitChar

/-- The test `/__+/.test(k)` (two consecutive underscores somewhere). -/
def hasDD : LStr → Bool
  | [] => false
  | [_] => false
  | a :: b :: rest => (a = '_' && b = '_') || hasDD (b :: rest)

/-- The test `/^_/.test(k)`. -/
def leadUnd : LStr → Bool
  | [] => false
  | c :: _ => c = '_'

/-- The test `/^_|_$/.test(k)`. -/
def leadTrailUnd (l : LStr) : Bool := leadUnd l || leadUnd l.reverse

/-- JS `String.prototype.includes`: `containsSeq pat l` is true iff `pat`
occurs as a contiguous substring of `l`. -/
def containsSeq (pat : LStr) : LStr → Bool
  | [] => pat.isEmpty
  | c :: rest => pat.isPrefixOf (c :: rest) || containsSeq pat rest

/-- JS `key.split('_')` (split on each single underscore, keeping empty
segments, `""` splitting to `[""]`). -/
def splitUnd : LStr → List LStr
  | [] => [[]]
  | c :: rest =>
    if c = '_' then [] :: splitUnd rest
    else
      match splitUnd rest with
      | p :: ps => (c :: p) :: ps
      | [] => [[c]]

/-- Verification helper: rejoin `splitUnd` segments with single
underscores (left inverse of `splitUnd`). -/
def unsplitUnd : List LStr → LStr
  | [] => []
  | [p] => p
  | p :: ps => p ++ '_' :: unsplitUnd ps

/-- Verification helper: the accumulation performed by the greedy segment
loop of `truncateKey` when every segment fits. -/
def joinFrom (res : LStr) (ps : List LStr) : LStr :=
  ps.foldl (fun r p => r ++ (if r.isEmpty then [] else ['_']) ++ p) res

/-- Verification helper: segments glued as `'_' :: p` each. -/
def glueParts (ps : List LStr) : LStr := (ps.map fun p => '_' :: p).flatten

/-- Verification helper: a string over the allowed characters with no
double underscore and no leading or trailing underscore (the shape
invariants preserved by the normalization pipeline). -/
def GoodRes (l : LStr) : Prop :=
  (∀ c ∈ l, isKeyChar c = true) ∧ hasDD l = false ∧
  leadUnd l = false ∧ leadUnd l.reverse = false

/-! ## KeyValidator (default rules)

Embedding of `KeyValidator` with `DEFAULT_KEY_RULES`:
`maxLength = 100`, `minLength = 2`, `allowedCharacters = /^[a-z0-9_]+$/`,
the four forbidden patterns `^_+$`, `^[0-9]+$`, `__+`, `^_|_$`, the reserved
word list, no required prefix or suffix, `caseSensitive = false`.
The process-scoped used-key set is passed explicitly as a `List LStr`. -/

namespace KeyValidator

/-- `DEFAULT_KEY_RULES.reservedWords`. -/
def reservedWords : List String :=
  ["undefined", "null", "true", "false", "function", "var", "let", "const",
   "if", "else", "for", "while", "do", "switch", "case", "default", "break",
   "continue", "return", "try", "catch", "finally", "throw", "new", "this",
   "super", "class", "extends", "import", "export", "from", "as", "default"]

/-- `rules.reservedWords.includes(keyToCheck)`. -/
def isReserved (k : LStr) : Bool :=
  reservedWords.any fun w => w.toList = k

/-- `sanitizeKey`: replace characters outside `[a-z0-9_]` by `_`, collapse
underscore runs, strip leading/trailing underscore runs. -/
def sanitizeKey (k : LStr) : LStr :=
  trimUnd (collapseUnd (k.map fun c => if isKeyChar c then c else '_'))

/-- `fixForbiddenPattern` for `^_+$`. -/
def fixAllUnd (_k : LStr) : LStr := "unnamed_key".toList

/-- `fixForbiddenPattern` for `^[0-9]+$`. -/
def fixAllDigits (k : LStr) : LStr := "key_".toList ++ k

/-- The forbidden-pattern loop of `normalizeKey`: each of the four default
patterns is tested in order on the current value and fixed when it
matches. -/
def fixPatterns (k : LStr) : LStr :=
  let n1 := if allUnd k then fixAllUnd k else k
  let n2 := if allDigits n1 then fixAllDigits n1 else n1
  let n3 := if hasDD n2 then collapseUnd n2 else n2
  if leadTrailUnd n3 then trimUnd n3 else n3

/-- The greedy segment loop of `truncateKey`: keep whole `_`-separated
parts while they fit, then (validator version) append a partial part only
if `maxLength - result.length - 1 > 0`. -/
def truncLoop (maxLen : Nat) : List LStr → LStr → LStr
  | [], res => res
  | p :: ps, res =>
    if res.length + p.length + 1 ≤ maxLen then
      truncLoop maxLen ps (res ++ (if res.isEmpty then [] else ['_']) ++ p)
    else
      let remaining : Int := (maxLen : Int) - res.length - 1
      if 0 < remaining then
        res ++ (if res.isEmpty then [] else ['_']) ++ p.take remaining.toNat
      else res

/-- `KeyValidator.truncateKey`. -/
def truncateKey (maxLen : Nat) (k : LStr) : LStr :=
  if k.length ≤ maxLen then k
  else
    let parts := splitUnd k
    if parts.length = 1 then k.take maxLen
    else
      let r := truncLoop maxLen parts []
      if r.isEmpty then k.take maxLen else r

/-- The fixed suffix tokens tried by `padKey`. -/
def padSuffixes : List LStr :=
  ["key".toList, "text".toList, "label".toList, "msg".toList]

/-- The `for (const suffix of suffixes)` loop of `padKey`. -/
def padSufLoop (minLen : Nat) (k : LStr) : List LStr → Option LStr
  | [] => none
  | s :: ss =>
    let padded := k ++ '_' :: s
    if minLen ≤ padded.length then some padded else padSufLoop minLen k ss

/-- The numeric fallback loop of `padKey`
(`while (key.length < minLength) key += '_' + counter`). -/
def padNumLoop (minLen : Nat) (counter : Nat) (k : LStr) : LStr :=
  if k.length < minLen then
    padNumLoop minLen (counter + 1) (k ++ '_' :: natDigits counter)
  else k
  termination_by minLen - k.length
  decreasing_by simp [List.length_append]; omega

/-- `KeyValidator.padKey`. -/
def padKey (minLen : Nat) (k : LStr) : LStr :=
  if minLen ≤ k.length then k
  else
    match padSufLoop minLen k padSuffixes with
    | some p => p
    | none => padNumLoop minLen 1 k

/-- The probe loop shared by `ensureUniqueness` and `generateUniqueKey`:
starting at counter `n`, return the first `key_counter` not in the used
set.  The JS `while` loop is unbounded; `fuel` is an upper bound on the
number of iterations, justified separately by a pigeonhole argument
(`usedKeys.length + 1` candidates cannot all be used). -/
def firstUnused (used : List LStr) (k : LStr) : Nat → Nat → LStr
  | 0, n => candKey k n
  | fuel + 1, n =>
    if candKey k n ∈ used then firstUnused used k fuel (n + 1) else candKey k n

/-- `KeyValidator.ensureUniqueness`: the key itself if unused, else the
first unused `key_1`, `key_2`, ….  Reads the used set, never adds to it. -/
def ensureUniqueness (used : List LStr) (k : LStr) : LStr :=
  if k ∈ used then firstUnused used k (used.length + 1) 1 else k

/-- `KeyValidator.generateUniqueKey` (used for validation suggestions):
always starts from `key_1`. -/
def generateUniqueKey (used : List LStr) (k : LStr) : LStr :=
  firstUnused used k (used.length + 1) 1

/-- `KeyValidator.normalizeKey` with the default rules.  The empty string
is JS-falsy, so it short-circuits to `'invalid_key'` (skipping the
uniqueness step, as in the source). -/
def normalizeKey (used : List LStr) (key : LStr) : LStr :=
  if key.isEmpty then "invalid_key".toList
  else
    let n0 := key.map Char.toLower
    let n1 := sanitizeKey n0
    let n2 := fixPatterns n1
    let n3 := if 100 < n2.length then truncateKey 100 n2 else n2
    let n4 := if n3.length < 2 then padKey 2 n3 else n3
    let n5 := if isReserved (n4.map Char.toLower) then n4 ++ "_key".toList else n4
    ensureUniqueness used n5

/-- Result record of `validateKey`. -/
structure ValidationResult where
  isValid : Bool
  errors : List String
  warnings : List String
  suggestions : List String
  deriving Repr, DecidableEq

/-- `[...new Set(xs)]`: deduplicate keeping first occurrences. -/
def dedupFirst : List String → List String
  | [] => []
  | s :: rest => s :: dedupFirst (rest.filter fun t => t ≠ s)
  termination_by l => l.length
  decreasing_by
    exact Nat.lt_succ_of_le (List.length_filter_le _ _)

/-- `addSemanticWarnings`: extra warnings and prefix-replacement
suggestions. -/
def semanticWarnings (key : LStr) : List String × List String :=
  let w1 := if key.length < 4 then
    ["Key is very short and may not be descriptive enough"] else []
  let generic := ["text".toList, "label".toList, "msg".toList,
    "str".toList, "val".toList]
  let w2 := if generic.any (fun p => containsSeq p key) then
    ["Key appears to be generic. Consider using more descriptive names"] else []
  let w3 := if key.contains '_' &&
      ((splitUnd key).any fun part => part.length ≤ 2) then
    ["Key contains very short parts that may be unclear"] else []
  let s1 := if "btn_".toList.isPrefixOf key then
    [String.mk ("button_".toList ++ key.drop 4)] else []
  let s2 := if "txt_".toList.isPrefixOf key then
    [String.mk ("text_".toList ++ key.drop 4)] else []
  let s3 := if "lbl_".toList.isPrefixOf key then
    [String.mk ("label_".toList ++ key.drop 4)] else []
  (w1 ++ w2 ++ w3, s1 ++ s2 ++ s3)

/-- `KeyValidator.validateKey` with the default rules. -/
def validateKey (used : List LStr) (key : LStr) : ValidationResult :=
  if key.isEmpty then
    ⟨false, ["Key must be a non-empty string"], [], []⟩
  else
    let minErr := if key.length < 2 then
      ["Key must be at least 2 characters long"] else []
    let maxErr := if 100 < key.length then
      ["Key must not exceed 100 characters"] else []
    let maxSug := if 100 < key.length then
      [String.mk (truncateKey 100 key)] else []
    let charOk := key.all isKeyChar
    let charErr := if charOk then [] else
      ["Key contains invalid characters. Only lowercase letters, numbers, and underscores are allowed"]
    let charSug := if charOk then [] else [String.mk (sanitizeKey key)]
    let p1Err := if allUnd key then ["Key matches forbidden pattern: only underscores"] else []
    let p1Sug := if allUnd key then [String.mk (fixAllUnd key)] else []
    let p2Err := if allDigits key then ["Key matches forbidden pattern: only numbers"] else []
    let p2Sug := if allDigits key then [String.mk (fixAllDigits key)] else []
    let p3Err := if hasDD key then ["Key matches forbidden pattern: repeated underscores"] else []
    let p3Sug := if hasDD key then [String.mk (collapseUnd key)] else []
    let p4Err := if leadTrailUnd key then ["Key matches forbidden pattern: leading or trailing underscore"] else []
    let p4Sug := if leadTrailUnd key then [String.mk (trimUnd key)] else []
    let resErr := if isReserved (key.map Char.toLower) then
      ["Key is a reserved word"] else []
    let resSug := if isReserved (key.map Char.toLower) then
      [String.mk (key ++ "_key".toList)] else []
    let useErr := if key ∈ used then ["Key is already in use"] else []
    let useSug := if key ∈ used then [String.mk (generateUniqueKey used key)] else []
    let (semW, semS) := semanticWarnings key
    let errors := minErr ++ maxErr ++ charErr ++ p1Err ++ p2Err ++ p3Err ++
      p4Err ++ resErr ++ useErr
    let suggestions := maxSug ++ charSug ++ p1Sug ++ p2Sug ++ p3Sug ++
      p4Sug ++ resSug ++ useSug ++ semS
    ⟨errors.isEmpty, errors, semW, dedupFirst suggestions⟩

/-- The validator's mutable state: the process-scoped used-key set
(a JS `Set<string>`, modelled as a duplicate-free-by-insertion list). -/
structure State where
  usedKeys : List LStr
  deriving Repr, DecidableEq

/-- `markKeyAsUsed` (`Set.add`). -/
def markKeyAsUsed (st : State) (k : LStr) : State :=
  if k ∈ st.usedKeys then st else ⟨st.usedKeys ++ [k]⟩

/-- `addExistingKeys`. -/
def addExistingKeys (st : State) (ks : List LStr) : State :=
  ks.foldl markKeyAsUsed st

/-- The `normalizeKey` method call as a state transformer: the source
method only reads `this.usedKeys` (its helpers, including
`ensureUniqueness`, contain no `usedKeys.add`), so the translated method
returns the key together with the resulting state. -/
def normalizeKeyM (st : State) (k : LStr) : LStr × State :=
  (normalizeKey st.usedKeys k, st)

end KeyValidator

/-- Verification helper: the stages of `normalizeKey` between sanitization
and the uniqueness step (forbidden patterns, length ceiling, padding,
reserved-word suffix). -/
def normStagesH (x : LStr) : LStr :=
  let n2 := KeyValidator.fixPatterns x
  let n3 := if 100 < n2.length then KeyValidator.truncateKey 100 n2 else n2
  let n4 := if n3.length < 2 then KeyValidator.padKey 2 n3 else n3
  if KeyValidator.isReserved (n4.map Char.toLower) then n4 ++ "_key".toList else n4

/-! ## KeyGenerator

Embedding of `KeyGenerator`: Persian/Arabic transliteration, semantic key
creation, the (generator version of) word-preserving truncation, the
uniqueness suffix loop, confidence scoring, and alternative suggestions. -/

namespace KeyGenerator

/-- `TRANSLITERATION_MAP`, in source insertion order (JS `Object.entries`
order for non-numeric keys). -/
def TRANSLITERATION_MAP : List (String × String) :=
  [("ا", "a"), ("آ", "aa"), ("ب", "b"), ("پ", "p"), ("ت", "t"), ("ث", "s"),
   ("ج", "j"), ("چ", "ch"), ("ح", "h"), ("خ", "kh"), ("د", "d"), ("ذ", "z"),
   ("ر", "r"), ("ز", "z"), ("ژ", "zh"), ("س", "s"), ("ش", "sh"), ("ص", "s"),
   ("ض", "z"), ("ط", "t"), ("ظ", "z"), ("ع", "a"), ("غ", "gh"), ("ف", "f"),
   ("ق", "gh"), ("ک", "k"), ("گ", "g"), ("ل", "l"), ("م", "m"), ("ن", "n"),
   ("و", "v"), ("ه", "h"), ("ی", "i"), ("ء", ""), ("ئ", "y"), ("ؤ", "v"),
   ("ك", "k"), ("ي", "y"), ("ة", "h"),
   ("سلام", "hello"), ("خوش آمدید", "welcome"), ("ورود", "login"),
   ("خروج", "logout"), ("ثبت نام", "register"), ("رمز عبور", "password"),
   ("نام کاربری", "username"), ("تایید", "confirm"), ("لغو", "cancel"),
   ("ذخیره", "save"), ("حذف", "delete"), ("ویرایش", "edit"), ("جدید", "new"),
   ("قدیمی", "old"), ("بعدی", "next"), ("قبلی", "previous"), ("صفحه", "page"),
   ("فهرست", "list"), ("جستجو", "search"), ("فیلتر", "filter"),
   ("تنظیمات", "settings"), ("پروفایل", "profile"), ("حساب کاربری", "account"),
   ("اطلاعات", "information"), ("جزئیات", "details"), ("توضیحات", "description"),
   ("نام", "name"), ("نام خانوادگی", "lastname"), ("ایمیل", "email"),
   ("تلفن", "phone"), ("آدرس", "address"), ("شهر", "city"), ("کشور", "country"),
   ("تاریخ", "date"), ("زمان", "time"), ("ساعت", "hour"), ("دقیقه", "minute"),
   ("روز", "day"), ("ماه", "month"), ("سال", "year"), ("امروز", "today"),
   ("دیروز", "yesterday"), ("فردا", "tomorrow"), ("خطا", "error"),
   ("موفقیت", "success"), ("هشدار", "warning"), ("اطلاع", "info"),
   ("بله", "yes"), ("خیر", "no"), ("باشه", "ok"), ("باطل", "cancel")]

/-- `KeyGenerationOptions` (the `strategy` field is unused by the
generator). The JS field `prefix` is named `keyPrefix` here. -/
structure Options where
  maxLength : Nat
  useContext : Bool
  keyPrefix : Option LStr
  deriving Repr, DecidableEq

/-- Persian digit `۰`–`۹`. -/
def isPersianDigit (c : Char) : Bool := 0x6F0 ≤ c.toNat && c.toNat ≤ 0x6F9

/-- Arabic-Indic digit `٠`–`٩`. -/
def isArabicDigit (c : Char) : Bool := 0x660 ≤ c.toNat && c.toNat ≤ 0x669

/-- `KeyGenerator.normalizeText`: trim, collapse whitespace, convert
Persian and Arabic digits to ASCII, strip characters outside
Arabic-script letters, whitespace and `\w`. -/
def normalizeText (t : LStr) : LStr :=
  let t1 := collapseWs (jsTrim t)
  let t2 := t1.map fun c =>
    if isPersianDigit c then Char.ofNat (c.toNat - 0x6F0 + 48) else c
  let t3 := t2.map fun c =>
    if isArabicDigit c then Char.ofNat (c.toNat - 0x660 + 48) else c
  t3.filter keepNormChar

/-- JS `str.replace(new RegExp(pat, 'g'), repl)` for a literal non-empty
pattern: leftmost, non-overlapping replacement, scanning resumes after the
replacement text. -/
def replaceAll (pat repl : LStr) : LStr → LStr
  | [] => []
  | c :: rest =>
    if !pat.isEmpty && pat.isPrefixOf (c :: rest) then
      repl ++ replaceAll pat repl ((c :: rest).drop pat.length)
    else c :: replaceAll pat repl rest
  termination_by l => l.length
  decreasing_by
    · simp only [List.length_drop, List.length_cons]
      rename_i h
      have : 1 ≤ pat.length := by
        cases pat with
        | nil => simp at h
        | cons a as => simp
      omega
    · simp

/-- The whole-string exact-match loop at the top of `transliterateText`
(first entry whose lower-cased key equals the lower-cased text). -/
def translitExact (t : LStr) : Option LStr :=
  (TRANSLITERATION_MAP.find? fun e =>
    t.map Char.toLower = e.1.toList.map Char.toLower).map fun e => e.2.toList

/-- The multi-character replacement pass of `transliterateText` (entries
with more than one character, in table order). -/
def translitMulti (t : LStr) : LStr :=
  TRANSLITERATION_MAP.foldl
    (fun acc e =>
      if 1 < e.1.length then replaceAll e.1.toList e.2.toList acc else acc) t

/-- Single-character lookup `TRANSLITERATION_MAP[char] || char`: the
entry `'ء' ↦ ''` is JS-falsy, so the character falls through unchanged. -/
def singleLookup (c : Char) : LStr :=
  match TRANSLITERATION_MAP.find? fun e => e.1.toList = [c] with
  | some e => if e.2.isEmpty then [c] else e.2.toList
  | none => [c]

/-- `KeyGenerator.transliterateText`. -/
def transliterateText (t : LStr) : LStr :=
  match translitExact t with
  | some e => e
  | none => ((translitMulti t).map singleLookup).flatten

/-- The greedy segment loop of the generator's `truncateKey`.  Unlike the
validator version, the partial segment is abbreviated to
`Math.max(1, maxLength - result.length - 1)` characters, so at least one
character is always appended when the segment is non-empty. -/
def truncGenLoop (maxLen : Nat) : List LStr → LStr → LStr
  | [], res => res
  | p :: ps, res =>
    if res.length + p.length + 1 ≤ maxLen then
      truncGenLoop maxLen ps (res ++ (if res.isEmpty then [] else ['_']) ++ p)
    else
      let m : Int := (maxLen : Int) - res.length - 1
      let abbreviated := p.take (if m < 1 then 1 else m.toNat)
      if abbreviated.isEmpty then res
      else res ++ (if res.isEmpty then [] else ['_']) ++ abbreviated

/-- `KeyGenerator.truncateKey`. -/
def truncateKey (maxLen : Nat) (k : LStr) : LStr :=
  if k.length ≤ maxLen then k
  else
    let parts := splitUnd k
    if parts.length = 1 then k.take maxLen
    else
      let r := truncGenLoop maxLen parts []
      if r.isEmpty then k.take maxLen else r

/-- The first three steps of `createSemanticKey`: slugify the
transliteration, then add the context token and the configured prefix. -/
def rawSemanticKey (opts : Options) (translit : LStr) (context : Option LStr) :
    LStr :=
  let key := trimOneUnd (collapseUnd
    ((collapseWs ((translit.map Char.toLower).filter
        fun c => isLowerAlnum c || isJsSpace c)).map
      fun c => if c = ' ' then '_' else c))
  let key := match opts.useContext, context with
    | true, some ctx =>
      let contextKey := (ctx.map Char.toLower).filter isLowerAlnum
      if contextKey.isEmpty then key else contextKey ++ '_' :: key
    | _, _ => key
  match opts.keyPrefix with
  | some p => if p.isEmpty then key else p ++ '_' :: key
  | none => key

/-- `KeyGenerator.createSemanticKey`: slugify the transliteration, add the
context token and the configured prefix, fall back to the sentinel
`'untranslated_text'`, then apply the length ceiling. -/
def createSemanticKey (opts : Options) (translit : LStr) (context : Option LStr) :
    LStr :=
  let key := if (rawSemanticKey opts translit context).isEmpty then
    "untranslated_text".toList else rawSemanticKey opts translit context
  if opts.maxLength < key.length then truncateKey opts.maxLength key else key

/-- `KeyGenerator.ensureUniqueness`: unlike the validator version this one
adds the chosen key to the generator's used set. -/
def ensureUniqueness (used : List LStr) (k : LStr) : LStr × List LStr :=
  let u := if k ∈ used then
    KeyValidator.firstUnused used k (used.length + 1) 1 else k
  (u, if u ∈ used then used else used ++ [u])

/-- The `for … of Object.keys` loop in `calculateConfidence` with its
`break`: does the lower-cased original text contain some multi-character
table key (lower-cased)? -/
def multiContains (lowerOriginal : LStr) : List (String × String) → Bool
  | [] => false
  | e :: rest =>
    if 1 < e.1.length &&
        containsSeq (e.1.toList.map Char.toLower) lowerOriginal then true
    else multiContains lowerOriginal rest

/-- `KeyGenerator.calculateConfidence` (JS number constants as exact
rationals). -/
def calculateConfidence (originalText generatedKey : LStr) : ℚ :=
  let c0 : ℚ := 1/2
  let c1 := if multiContains (originalText.map Char.toLower) TRANSLITERATION_MAP
    then c0 + 3/10 else c0
  let c2 := if generatedKey.contains '_' && 3 < generatedKey.length
    then c1 + 1/10 else c1
  let c3 := if generatedKey.length < 3 ||
      generatedKey = "untranslated_text".toList
    then c2 - 1/5 else c2
  jsMax 0 (jsMin 1 c3)

/-- JS `text.split(/\s+/)` (runs of whitespace as separators, keeping a
leading empty segment when the text starts with whitespace). -/
def splitWs : LStr → List LStr
  | [] => [[]]
  | c :: rest =>
    if isJsSpace c then [] :: splitWs (rest.dropWhile isJsSpace)
    else
      match splitWs rest with
      | p :: ps => (c :: p) :: ps
      | [] => [[c]]
  termination_by l => l.length
  decreasing_by
    · exact Nat.lt_succ_of_le (List.dropWhile_sublist _).length_le
    · simp

/-- `KeyGenerator.generateAlternatives`. -/
def generateAlternatives (text : LStr) (context : Option LStr) : List LStr :=
  let normalizedText := normalizeText text
  let simple := trimOneUnd (collapseUnd
    (((transliterateText normalizedText).map Char.toLower).map
      fun c => if isLowerAlnum c then c else '_'))
  let a1 := if simple.isEmpty then [] else [simple]
  let a2 := match context with
    | some ctx => if ctx.isEmpty then [] else
        [(ctx.map Char.toLower) ++ '_' :: simple]
    | none => []
  let words := splitWs normalizedText
  let a3 := if 1 < words.length then
    let abbreviated :=
      ((words.map fun w => (transliterateText w).take 1).intersperse ['_']).flatten
    if 1 < abbreviated.length then [abbreviated] else []
  else []
  (a1 ++ a2 ++ a3).take 3

/-- The claim's exact-match condition (spec §4.1): the original text
"exactly matched a multi-character table entry" (lower-cased, as the
transliteration exact-match pass compares). -/
def exactMultiMatch (text : LStr) : Bool :=
  TRANSLITERATION_MAP.any fun e =>
    1 < e.1.length && text.map Char.toLower = e.1.toList.map Char.toLower

/-- The confidence score as the claim states it, for comparison against
the code's `calculateConfidence`: `+0.3` only when the original text is an
exact multi-character table match (the code instead tests substring
containment). -/
def specConfidenceExactMatch (text key : LStr) : ℚ :=
  jsMax 0 (jsMin 1 ((1 : ℚ)/2
    + (if exactMultiMatch text then 3/10 else 0)
    + (if key.contains '_' && 3 < key.length then 1/10 else 0)
    - (if key.length < 3 || key = "untranslated_text".toList then 1/5 else 0)))

/-- `GeneratedKey`. -/
structure GeneratedKey where
  key : LStr
  originalText : LStr
  confidence : ℚ
  suggestions : List LStr
  deriving Repr, DecidableEq

/-- `KeyGenerator.generateKey` as a function of the generator's used-key
set (which `ensureUniqueness` updates). -/
def generateKey (opts : Options) (used : List LStr) (text : LStr)
    (context : Option LStr) : GeneratedKey × List LStr :=
  let normalizedText := normalizeText text
  let transliteratedText := transliterateText normalizedText
  let semanticKey := createSemanticKey opts transliteratedText context
  let (finalKey, used') := ensureUniqueness used semanticKey
  let confidence := calculateConfidence text finalKey
  (⟨finalKey, text, confidence, generateAlternatives text context⟩, used')

end KeyGenerator

/-! ## DuplicateDetector

Embedding of `DuplicateDetector`: per-locale key→value and
normalized-value→keys maps, exact and approximate duplicate checks.
JS `Map`s are modelled as insertion-ordered association lists. -/

/-- Ordered-association-list lookup (JS `Map.get` / object indexing):
the value of the first (and in a JS map, only) entry with this key. -/
def alistGet {β : Type} : List (LStr × β) → LStr → Option β
  | [], _ => none
  | e :: rest, k => if e.1 = k then some e.2 else alistGet rest k

/-- JS `Map.has` / `key in obj`. -/
def alistHas {β : Type} : List (LStr × β) → LStr → Bool
  | [], _ => false
  | e :: rest, k => if e.1 = k then true else alistHas rest k

/-- JS `Map.set` / object assignment: update in place if the key exists,
else append. -/
def alistSet {β : Type} (m : List (LStr × β)) (k : LStr) (v : β) :
    List (LStr × β) :=
  if alistHas m k then m.map fun e => if e.1 = k then (k, v) else e
  else m ++ [(k, v)]

/-- JS `delete obj[key]`. -/
def alistDel {β : Type} (m : List (LStr × β)) (k : LStr) : List (LStr × β) :=
  m.filter fun e => e.1 ≠ k

namespace DuplicateDetector

/-- `DuplicateCheckResult`. -/
structure DuplicateCheckResult where
  isDuplicate : Bool
  existingKey : Option LStr
  similarKeys : List LStr
  deriving Repr, DecidableEq

/-- Internal state: `translationData` (locale → key → value) and
`valueToKeys` (locale → normalized value → keys). -/
structure State where
  translationData : List (LStr × List (LStr × LStr))
  valueToKeys : List (LStr × List (LStr × List LStr))
  deriving Repr, DecidableEq

/-- The empty detector (`initializeMaps`). -/
def emptyState : State := ⟨[], []⟩

/-- `DuplicateDetector.normalizeValue`: trim, lower-case, collapse
whitespace, strip characters outside Arabic-script letters, whitespace
and `\w`. -/
def normalizeValue (v : LStr) : LStr :=
  (collapseWs ((jsTrim v).map Char.toLower)).filter keepNormChar

/-- The Levenshtein distance recurrence filled in by the
`calculateSimilarity` matrix:
`m[i][j] = min(m[i-1][j]+1, m[i][j-1]+1, m[i-1][j-1]+cost)`. -/
def levDist : LStr → LStr → Nat
  | [], ys => ys.length
  | x :: xs, [] => (x :: xs).length
  | x :: xs, y :: ys =>
    min (levDist xs (y :: ys) + 1)
      (min (levDist (x :: xs) ys + 1)
        (levDist xs ys + if x = y then 0 else 1))

/-- `DuplicateDetector.calculateSimilarity`:
`1 − distance / max(len1, len2)`, with the degenerate empty cases handled
first as in the source. -/
def calculateSimilarity (a b : LStr) : ℚ :=
  if a.length = 0 then (if b.length = 0 then 1 else 0)
  else if b.length = 0 then 0
  else 1 - (levDist a b : ℚ) / (max a.length b.length : Nat)

/-- The locale list scanned by a query (`locale ? [locale] : all`). -/
def localesOf (st : State) (locale : Option LStr) : List LStr :=
  match locale with
  | some l => [l]
  | none => st.translationData.map fun e => e.1

/-- `findSimilarKeys`: keys with similarity above 0.7, first five. -/
def findSimilarKeys (st : State) (targetKey : LStr) (locale : Option LStr) :
    List LStr :=
  ((localesOf st locale).foldl
    (fun acc loc =>
      match alistGet st.translationData loc with
      | none => acc
      | some m =>
        acc ++ (m.map fun e => e.1).filter
          fun k => 7/10 < calculateSimilarity targetKey k)
    []).take 5

/-- `findSimilarValues`: keys whose normalized value has similarity above
0.8 to the normalized target, first five. -/
def findSimilarValues (st : State) (targetValue : LStr) (locale : LStr) :
    List LStr :=
  match alistGet st.translationData locale with
  | none => []
  | some m =>
    ((m.filter fun e =>
        4/5 < calculateSimilarity (normalizeValue targetValue)
          (normalizeValue e.2)).map fun e => e.1).take 5

/-- `DuplicateDetector.checkKeyDuplicate`. -/
def checkKeyDuplicate (st : State) (key : LStr) (locale : Option LStr) :
    DuplicateCheckResult :=
  match (localesOf st locale).find? fun loc =>
      match alistGet st.translationData loc with
      | some m => alistHas m key
      | none => false with
  | some loc => ⟨true, some key, findSimilarKeys st key (some loc)⟩
  | none => ⟨false, none, findSimilarKeys st key locale⟩

/-- `DuplicateDetector.checkValueDuplicate`. -/
def checkValueDuplicate (st : State) (value : LStr) (locale : LStr) :
    DuplicateCheckResult :=
  let normalizedValue := normalizeValue value
  match alistGet st.valueToKeys locale with
  | some vm =>
    match alistGet vm normalizedValue with
    | some existingKeys => ⟨true, existingKeys.head?, existingKeys⟩
    | none => ⟨false, none, findSimilarValues st value locale⟩
  | none => ⟨false, none, findSimilarValues st value locale⟩

/-- `DuplicateDetector.addTranslationEntry`. -/
def addTranslationEntry (st : State) (locale key value : LStr) : State :=
  let st := if alistHas st.translationData locale then st
    else ⟨st.translationData ++ [(locale, [])],
          st.valueToKeys ++ [(locale, [])]⟩
  let localeData := (alistGet st.translationData locale).getD []
  let valueMap := (alistGet st.valueToKeys locale).getD []
  let localeData := alistSet localeData key value
  let normalizedValue := normalizeValue value
  let keys := (alistGet valueMap normalizedValue).getD []
  let valueMap := alistSet valueMap normalizedValue (keys ++ [key])
  ⟨alistSet st.translationData locale localeData,
   alistSet st.valueToKeys locale valueMap⟩

/-- `DuplicateDetector.generateContextualSuffix`. -/
def generateContextualSuffix (baseKey context : LStr) : LStr :=
  let contextSuffix := trimOneUnd (collapseUnd
    ((context.map Char.toLower).map fun c => if isLowerAlnum c then c else '_'))
  if contextSuffix.isEmpty then baseKey ++ "_alt".toList
  else baseKey ++ '_' :: contextSuffix

/-- `DuplicateDetector.getDuplicateValues`: normalized values with more
than one key in a locale. -/
def getDuplicateValues (st : State) (locale : LStr) : List (LStr × List LStr) :=
  match alistGet st.valueToKeys locale with
  | none => []
  | some vm => (vm.filter fun e => 1 < e.2.length).map fun e => (e.1, e.2)

end DuplicateDetector

/-! ## KeyManager

Embedding of `KeyManager.processTextForKey` and `generateKeys`: generate,
validate, normalize on failure, resolve duplicates, mark used. -/

namespace KeyManager

open KeyGenerator DuplicateDetector

/-- The combined mutable state of the three components owned by
`KeyManager`. -/
structure State where
  genUsed : List LStr
  detector : DuplicateDetector.State
  valUsed : List LStr
  deriving Repr, DecidableEq

/-- A fresh `KeyManager` (all three components empty). -/
def initState : State := ⟨[], DuplicateDetector.emptyState, []⟩

/-- `KeyManager.handleKeyDuplicate`: contextual suffix if the context is
present (JS-truthy) and the suffixed key unused, else the first unused
numbered alternative `key_1`, `key_2`, …. -/
def handleKeyDuplicate (valUsed : List LStr) (key : LStr)
    (context : Option LStr) : LStr :=
  let numbered := KeyValidator.firstUnused valUsed key (valUsed.length + 1) 1
  match context with
  | some ctx =>
    if ctx.isEmpty then numbered
    else
      let contextualKey := generateContextualSuffix key ctx
      if contextualKey ∈ valUsed then numbered else contextualKey
  | none => numbered

/-- Result record of `processTextForKey`. -/
structure ProcessResult where
  generatedKey : GeneratedKey
  validation : KeyValidator.ValidationResult
  duplicateCheck : DuplicateCheckResult
  finalKey : LStr
  deriving Repr, DecidableEq

/-- Steps 2–3 of `processTextForKey`: validate the generated key, and
normalize it when validation failed. -/
def normalizedIfInvalid (valUsed : List LStr) (gkey : LStr) : LStr :=
  if (KeyValidator.validateKey valUsed gkey).isValid then gkey
  else KeyValidator.normalizeKey valUsed gkey

/-- Step 5 of `processTextForKey`: resolve a key-duplicate conflict via
`handleKeyDuplicate` when the detector reports one. -/
def resolvedKey (valUsed : List LStr) (detector : DuplicateDetector.State)
    (key0 : LStr) (locale : LStr) (context : Option LStr) : LStr :=
  if (checkKeyDuplicate detector key0 (some locale)).isDuplicate then
    handleKeyDuplicate valUsed key0 context
  else key0

/-- `KeyManager.processTextForKey`: the six steps of the source method.
The merged duplicate-check record takes `keyDuplicateCheck.existingKey`
first (`a || b` on keys, which are non-empty strings when present). -/
def processTextForKey (opts : Options) (st : State) (text : LStr)
    (locale : LStr) (context : Option LStr) : ProcessResult × State :=
  let (generatedKey, genUsed') := generateKey opts st.genUsed text context
  let validation := KeyValidator.validateKey st.valUsed generatedKey.key
  let finalKey0 := normalizedIfInvalid st.valUsed generatedKey.key
  let keyDup := checkKeyDuplicate st.detector finalKey0 (some locale)
  let valueDup := checkValueDuplicate st.detector text locale
  let finalKey := resolvedKey st.valUsed st.detector finalKey0 locale context
  let valUsed' := if finalKey ∈ st.valUsed then st.valUsed
    else st.valUsed ++ [finalKey]
  (⟨{ generatedKey with key := finalKey }, validation,
    ⟨keyDup.isDuplicate || valueDup.isDuplicate,
     keyDup.existingKey.orElse fun _ => valueDup.existingKey,
     keyDup.similarKeys ++ valueDup.similarKeys⟩, finalKey⟩,
   ⟨genUsed', st.detector, valUsed'⟩)

/-- A text match as consumed by `generateKeys` (`text` and optional
`context`; the file path does not influence key generation). -/
structure MatchInput where
  text : LStr
  context : Option LStr
  deriving Repr, DecidableEq

/-- `KeyManager.generateKeys`: sequential batch processing; every result
takes `finalKey`, the original text, and the confidence and suggestions of
the generated key.  (The JS `catch` fallback is unreachable in this pure
embedding.)  The locale used by the source is the literal `'en'`. -/
def generateKeys (opts : Options) (st : State) (ms : List MatchInput) :
    List GeneratedKey × State :=
  ms.foldl
    (fun acc m =>
      let (r, st') := processTextForKey opts acc.2 m.text "en".toList m.context
      (acc.1 ++ [⟨r.finalKey, m.text, r.generatedKey.confidence,
        r.generatedKey.suggestions⟩], st'))
    ([], st)

end KeyManager

/-! ## JSONManager (locale store reader/writer)

`readTranslationFile` is modelled over an abstract disk state for one
locale: `none` for a missing file (`ENOENT`), `some (parsed m)` for a file
whose content parses to a flat map, `some malformed` for existing content
that `JSON.parse` rejects. -/

namespace JSONManager

/-- The content of one locale file on disk. -/
inductive FileContent
  | parsed (entries : List (LStr × LStr))
  | malformed
  deriving Repr, DecidableEq

/-- `JSONManager.readTranslationFile`: `ENOENT` yields the empty map, any
other failure (in particular a `JSON.parse` `SyntaxError`, whose `code` is
not `'ENOENT'`) is rethrown as a hard error. -/
def readTranslationFile : Option FileContent → Except String (List (LStr × LStr))
  | none => .ok []
  | some (.parsed m) => .ok m
  | some .malformed => .error "Failed to read translation file"

/-- `sortTranslations`: keys sorted ascending by JS default string
comparison (code-unit lexicographic order). -/
def sortTranslations (translations : List (LStr × LStr)) : List (LStr × LStr) :=
  translations.insertionSort fun a b => ¬ b.1 < a.1

/-- `writeTranslationFile`: the persisted content is the key-sorted map
(serialization itself is not modelled). -/
def writeTranslationFile (translations : List (LStr × LStr)) :
    List (LStr × LStr) :=
  sortTranslations translations

end JSONManager

/-! ## DuplicateValueDetector (store-level duplicate scanner)

Embedding of `DuplicateValueDetector`: grouping of persisted keys by
value, and the consolidation / rename operations.  The pure functions act
on the parsed per-locale map a `readTranslationFile` call returns. -/

namespace DuplicateValueDetector

/-- `DuplicateValue`. -/
structure DuplicateValue where
  value : LStr
  keys : List LStr
  locales : List LStr
  deriving Repr, DecidableEq

/-- `ConsolidationDecision` (`action` plus the field the action uses). -/
inductive ConsolidationDecision
  | consolidate (targetKey : LStr)
  | rename (newKey : LStr)
  | keepSeparate
  deriving Repr, DecidableEq

/-- The grouping loop of `findDuplicatesInLocale`: build a value → keys
map over the raw (unnormalized) values, in entry order. -/
def valueMapOf (translations : List (LStr × LStr)) : List (LStr × List LStr) :=
  translations.foldl
    (fun vm e => alistSet vm e.2 ((alistGet vm e.2).getD [] ++ [e.1])) []

/-- `DuplicateValueDetector.findDuplicatesInLocale`: every raw value held
by more than one key, as a `DuplicateValue` for this locale. -/
def findDuplicatesInLocale (locale : LStr) (translations : List (LStr × LStr)) :
    List DuplicateValue :=
  ((valueMapOf translations).filter fun e => 1 < e.2.length).map
    fun e => ⟨e.1, e.2, [locale]⟩

/-- `DuplicateValueDetector.performConsolidation`: force the target key to
the duplicated value, delete every other listed key, persist. -/
def performConsolidation (translations : List (LStr × LStr))
    (dv : DuplicateValue) (targetKey : LStr) : List (LStr × LStr) :=
  let t := alistSet translations targetKey dv.value
  let t := dv.keys.foldl (fun t k => if k ≠ targetKey then alistDel t k else t) t
  JSONManager.writeTranslationFile t

/-- `DuplicateValueDetector.performRename`: add the new key with the
value, delete every listed key (including the target), persist. -/
def performRename (translations : List (LStr × LStr))
    (dv : DuplicateValue) (newKey : LStr) : List (LStr × LStr) :=
  let t := alistSet translations newKey dv.value
  let t := dv.keys.foldl (fun t k => alistDel t k) t
  JSONManager.writeTranslationFile t

/-- `DuplicateValueDetector.consolidateDuplicates`: dispatch on the
decision; `keep_separate` only logs and leaves the store unchanged. -/
def consolidateDuplicates (translations : List (LStr × LStr))
    (dv : DuplicateValue) (decision : ConsolidationDecision) :
    List (LStr × LStr) :=
  match decision with
  | .consolidate targetKey => performConsolidation translations dv targetKey
  | .rename newKey => performRename translations dv newKey
  | .keepSeparate => translations

end DuplicateValueDetector

/-! ## BackupSystem

`listBackups` and `cleanupOldBackups` modelled over the manifest list
found on disk; timestamps are the `Date.getTime()` values of the ISO
strings stored in the manifests. -/

namespace BackupSystem

/-- `BackupInfo` (with the parsed timestamp). -/
structure BackupInfo where
  id : String
  timestamp : Int
  files : List String
  description : String
  deriving Repr, DecidableEq

/-- `listBackups`: the manifests sorted by timestamp, newest first
(`backups.sort((a, b) => b.timestamp - a.timestamp)`). -/
def listBackups (raw : List BackupInfo) : List BackupInfo :=
  raw.insertionSort fun a b => b.timestamp ≤ a.timestamp

/-- `cleanupOldBackups keep`: the backups the call deletes — none when
the count is at most `keep`, else everything after the first `keep` of
the newest-first listing (`backups.slice(keepCount)`). -/
def cleanupOldBackups (raw : List BackupInfo) (keep : Nat) : List BackupInfo :=
  let backups := listBackups raw
  if backups.length ≤ keep then [] else backups.drop keep

end BackupSystem

/-! # Theorems -/

/-! ## Association-list lemmas -/

variable {β : Type}

theorem alistGet_eq_none_iff (m : List (LStr × β)) (k : LStr) :
    alistGet m k = none ↔ alistHas m k = false := by
  induction m with
  | nil => simp [alistGet, alistHas]
  | cons e rest ih =>
    by_cases h : e.1 = k <;> simp [alistGet, alistHas, h, ih]

theorem alistGet_mapUpdate_self (m : List (LStr × β)) (k : LStr) (v : β)
    (h : alistHas m k = true) :
    alistGet (m.map fun e => if e.1 = k then (k, v) else e) k = some v := by
  induction m with
  | nil => simp [alistHas] at h
  | cons e rest ih =>
    by_cases he : e.1 = k
    · simp [alistGet, he]
    · rw [alistHas, if_neg he] at h
      simp only [List.map_cons]
      rw [if_neg he, alistGet, if_neg he]
      exact ih h

theorem alistGet_mapUpdate_ne (m : List (LStr × β)) (k k' : LStr) (v : β)
    (h : k' ≠ k) :
    alistGet (m.map fun e => if e.1 = k then (k, v) else e) k' = alistGet m k' := by
  induction m with
  | nil => simp [alistGet]
  | cons e rest ih =>
    by_cases he : e.1 = k
    · simp only [List.map_cons, if_pos he, alistGet]
      rw [if_neg (fun hk => h hk.symm), if_neg (by rw [he]; exact fun hk => h hk.symm), ih]
    · simp only [List.map_cons, if_neg he, alistGet]
      by_cases he' : e.1 = k'
      · rw [if_pos he', if_pos he']
      · rw [if_neg he', if_neg he', ih]

theorem alistGet_append_single (m : List (LStr × β)) (k k' : LStr) (v : β) :
    alistGet (m ++ [(k, v)]) k' =
      ((alistGet m k').orElse fun _ => if k = k' then some v else none) := by
  induction m with
  | nil => simp [alistGet]
  | cons e rest ih =>
    by_cases he : e.1 = k'
    · simp [alistGet, he, Option.orElse]
    · simpa [alistGet, he] using ih

theorem alistGet_set_self (m : List (LStr × β)) (k : LStr) (v : β) :
    alistGet (alistSet m k v) k = some v := by
  rw [alistSet]
  split
  · exact alistGet_mapUpdate_self m k v (by assumption)
  · rename_i h
    rw [Bool.not_eq_true, ← alistGet_eq_none_iff] at h
    rw [alistGet_append_single, h]
    simp [Option.orElse]

theorem alistGet_set_ne (m : List (LStr × β)) (k k' : LStr) (v : β)
    (h : k' ≠ k) : alistGet (alistSet m k v) k' = alistGet m k' := by
  rw [alistSet]
  split
  · exact alistGet_mapUpdate_ne m k k' v h
  · rw [alistGet_append_single, if_neg (fun hk => h hk.symm)]
    cases hg : alistGet m k' <;> simp [Option.orElse]

theorem alistHas_eq_isSome (m : List (LStr × β)) (k : LStr) :
    alistHas m k = (alistGet m k).isSome := by
  induction m with
  | nil => rfl
  | cons e rest ih =>
    by_cases he : e.1 = k <;> simp [alistHas, alistGet, he, ih]

theorem alistHas_set (m : List (LStr × β)) (k k' : LStr) (v : β) :
    alistHas (alistSet m k v) k' = (decide (k' = k) || alistHas m k') := by
  rw [alistHas_eq_isSome, alistHas_eq_isSome]
  by_cases h : k' = k
  · subst h
    rw [alistGet_set_self]
    simp
  · rw [alistGet_set_ne _ _ _ _ h]
    simp [h]

theorem alistNodup_set (m : List (LStr × β)) (k : LStr) (v : β)
    (h : (m.map fun e => e.1).Nodup) :
    ((alistSet m k v).map fun e => e.1).Nodup := by
  rw [alistSet]
  split
  · have heq : ((m.map fun e => if e.1 = k then (k, v) else e).map fun e => e.1)
        = m.map fun e => e.1 := by
      rw [List.map_map]
      apply List.map_congr_left
      intro e _
      by_cases he : e.1 = k <;> simp [he]
    rw [heq]; exact h
  · rename_i hh
    rw [Bool.not_eq_true, ← alistGet_eq_none_iff] at hh
    rw [List.map_append]
    simp only [List.map_cons, List.map_nil]
    rw [List.nodup_append]
    refine ⟨h, List.nodup_singleton _, ?_⟩
    intro a ha hb
    simp only [List.mem_singleton] at hb
    subst hb
    have hsome : (alistGet m a).isSome := by
      clear h hh
      induction m with
      | nil => simp at ha
      | cons e rest ih =>
        simp only [List.map_cons, List.mem_cons] at ha
        rw [alistGet]
        rcases ha with ha | ha
        · simp [ha]
        · by_cases he : e.1 = a <;> simp [he, ih ha]
    rw [hh] at hsome
    exact Bool.noConfusion hsome

theorem alistMem_iff_get (m : List (LStr × β)) (k : LStr) (v : β)
    (h : (m.map fun e => e.1).Nodup) :
    (k, v) ∈ m ↔ alistGet m k = some v := by
  induction m with
  | nil => simp [alistGet]
  | cons e rest ih =>
    simp only [List.map_cons, List.nodup_cons] at h
    by_cases he : e.1 = k
    · rw [alistGet, if_pos he]
      simp only [List.mem_cons]
      constructor
      · rintro (rfl | hm)
        · rfl
        · exact absurd (List.mem_map.mpr ⟨(k, v), hm, he.symm⟩) h.1
      · intro hv
        injection hv with hv
        left
        obtain ⟨e1, e2⟩ := e
        simp only at he hv
        rw [he, hv]
    · rw [alistGet, if_neg he]
      rw [List.mem_cons, ← ih h.2]
      constructor
      · rintro (rfl | hm)
        · exact absurd rfl he
        · exact hm
      · exact fun hm => Or.inr hm

/-- **C2** (code bug): the spec claims `validate(normalize(s)).isValid` for
every `s`, but `normalizeKey` is not always rule-satisfying: on `"!!!"`
sanitization leaves the empty string, `padKey` then returns `"_key"`, and
`validateKey` rejects `"_key"` for the forbidden leading-underscore
pattern. -/
theorem c2_normalize_not_always_valid :
    KeyValidator.normalizeKey [] "!!!".toList = "_key".toList ∧
    (KeyValidator.validateKey [] "_key".toList).isValid = false := by decide

/-- **C3** (counterexample): `normalizeKey` is not idempotent on the code:
with an empty used-key set, `normalizeKey "!!!" = "_key"` but
`normalizeKey "_key" = "key"`. -/
theorem c3_normalize_not_idempotent :
    KeyValidator.normalizeKey [] (KeyValidator.normalizeKey [] "!!!".toList) ≠
      KeyValidator.normalizeKey [] "!!!".toList := by decide

open DuplicateValueDetector

theorem valueMapOf_go_get (ts : List (LStr × LStr))
    (vm : List (LStr × List LStr)) (v : LStr) :
    (alistGet (ts.foldl
        (fun vm e => alistSet vm e.2 ((alistGet vm e.2).getD [] ++ [e.1])) vm) v).getD []
      = (alistGet vm v).getD [] ++ (ts.filter fun e => e.2 = v).map (fun e => e.1) := by
  induction ts generalizing vm with
  | nil => simp
  | cons e ts ih =>
    rw [List.foldl_cons, ih]
    by_cases hv : e.2 = v
    · subst hv
      rw [alistGet_set_self]
      simp [List.filter_cons]
    · rw [alistGet_set_ne _ _ _ _ (fun hk => hv hk.symm)]
      simp [List.filter_cons, hv]

theorem valueMapOf_go_has (ts : List (LStr × LStr))
    (vm : List (LStr × List LStr)) (v : LStr) :
    alistHas (ts.foldl
        (fun vm e => alistSet vm e.2 ((alistGet vm e.2).getD [] ++ [e.1])) vm) v
      = (alistHas vm v || ts.any fun e => e.2 = v) := by
  induction ts generalizing vm with
  | nil => simp
  | cons e ts ih =>
    rw [List.foldl_cons, ih, alistHas_set]
    by_cases hv : e.2 = v
    · subst hv; simp
    · have hv2 : ¬ v = e.2 := fun hk => hv hk.symm
      simp [decide_eq_false hv2, decide_eq_false hv]

theorem valueMapOf_nodup (ts : List (LStr × LStr)) :
    ((valueMapOf ts).map fun e => e.1).Nodup := by
  rw [valueMapOf]
  have : ∀ vm : List (LStr × List LStr), ((vm.map fun e => e.1).Nodup) →
      ((ts.foldl
        (fun vm e => alistSet vm e.2 ((alistGet vm e.2).getD [] ++ [e.1])) vm).map
          fun e => e.1).Nodup := by
    induction ts with
    | nil => intro vm h; exact h
    | cons e ts ih =>
      intro vm h
      rw [List.foldl_cons]
      exact ih _ (alistNodup_set _ _ _ h)
  exact this [] (by simp)

theorem valueMapOf_get (ts : List (LStr × LStr)) (v : LStr) :
    (alistGet (valueMapOf ts) v).getD []
      = (ts.filter fun e => e.2 = v).map (fun e => e.1) := by
  rw [valueMapOf]
  rw [valueMapOf_go_get]
  simp [alistGet]

theorem valueMapOf_has (ts : List (LStr × LStr)) (v : LStr) :
    alistHas (valueMapOf ts) v = ts.any fun e => e.2 = v := by
  rw [valueMapOf, valueMapOf_go_has]
  simp [alistHas]

/-- **C5** (amended): the store-level duplicate scan groups keys by *raw*
(exact) value equality, not by normalized value: it reports exactly the
groups of two or more keys whose raw values are identical, and no group
for a value held by a single key. -/
theorem c5_scan_partitions_by_raw_value (locale : LStr)
    (ts : List (LStr × LStr)) (v : LStr) (ks : List LStr) :
    (⟨v, ks, [locale]⟩ : DuplicateValue) ∈ findDuplicatesInLocale locale ts ↔
      ks = (ts.filter fun e => e.2 = v).map (fun e => e.1) ∧ 2 ≤ ks.length := by
  rw [findDuplicatesInLocale]
  simp only [List.mem_map, List.mem_filter, DuplicateValue.mk.injEq]
  constructor
  · rintro ⟨⟨e1, e2⟩, ⟨hmem, hlen⟩, h1, h2, -⟩
    simp only at h1 h2
    simp only [decide_eq_true_eq] at hlen
    subst h1; subst h2
    have hget := (alistMem_iff_get _ _ _ (valueMapOf_nodup ts)).mp hmem
    have hv := valueMapOf_get ts e1
    rw [hget] at hv
    simp only [Option.getD_some] at hv
    exact ⟨hv, by omega⟩
  · rintro ⟨hks, hlen⟩
    have hne : ks ≠ [] := by
      intro hc; rw [hc] at hlen; simp at hlen
    have hany : (ts.any fun e => e.2 = v) = true := by
      rcases ks with _ | ⟨k0, ks'⟩
      · exact absurd rfl hne
      · have : (ts.filter fun e => e.2 = v) ≠ [] := by
          intro hc
          rw [hc] at hks
          exact List.noConfusion hks
        rcases List.exists_mem_of_ne_nil _ this with ⟨e, he⟩
        rw [List.mem_filter] at he
        exact List.any_eq_true.mpr ⟨e, he.1, he.2⟩
    have hhas : alistHas (valueMapOf ts) v = true := by
      rw [valueMapOf_has]; exact hany
    rw [alistHas_eq_isSome] at hhas
    obtain ⟨w, hw⟩ := Option.isSome_iff_exists.mp hhas
    have hgd := valueMapOf_get ts v
    rw [hw] at hgd
    simp only [Option.getD_some] at hgd
    have hwks : w = ks := by rw [hgd, hks]
    refine ⟨(v, ks), ⟨?_, ?_⟩, rfl, rfl, trivial⟩
    · exact (alistMem_iff_get _ _ _ (valueMapOf_nodup ts)).mpr (hwks ▸ hw)
    · simp only [decide_eq_true_eq]
      omega

/-- **C5** (counterexample): `findDuplicatesInLocale` groups by raw value,
so the keys `a ↦ "X "` and `b ↦ "x"` — identical after the normalization
the claim describes (trim, lower-case, collapse whitespace, strip) — are
reported in no group at all. -/
theorem c5_scan_misses_normalized_duplicates :
    DuplicateValueDetector.findDuplicatesInLocale "fa".toList
        [("a".toList, "X ".toList), ("b".toList, "x".toList)] = [] ∧
    DuplicateDetector.normalizeValue "X ".toList =
      DuplicateDetector.normalizeValue "x".toList ∧
    "a".toList ≠ "b".toList := by
  refine ⟨by decide, by decide, by decide⟩

/-- **C5** witness: on `{a: "x", b: "x", c: "y"}` the scan reports exactly
the group `{value: "x", keys: [a, b]}` and none for `"y"` (the spec's
duplicate-scan partition example). -/
theorem c5_scan_partitions_by_raw_value_witness :
    ((⟨"x".toList, ["a".toList, "b".toList], ["en".toList]⟩ : DuplicateValue) ∈
      findDuplicatesInLocale "en".toList
        [("a".toList, "x".toList), ("b".toList, "x".toList), ("c".toList, "y".toList)]) ∧
    ¬ ((⟨"y".toList, ["c".toList], ["en".toList]⟩ : DuplicateValue) ∈
      findDuplicatesInLocale "en".toList
        [("a".toList, "x".toList), ("b".toList, "x".toList), ("c".toList, "y".toList)]) := by
  constructor
  · exact (c5_scan_partitions_by_raw_value _ _ _ _).mpr ⟨by decide, by decide⟩
  · intro hc
    have := (c5_scan_partitions_by_raw_value _ _ _ _).mp hc
    exact absurd this.2 (by decide)

theorem alistDel_get (m : List (LStr × β)) (k k' : LStr) :
    alistGet (alistDel m k) k' = if k' = k then none else alistGet m k' := by
  induction m with
  | nil => simp [alistDel, alistGet]
  | cons e rest ih =>
    rw [alistDel, List.filter_cons]
    rw [alistDel] at ih
    by_cases he : e.1 = k
    · rw [if_neg (by simpa using he)]
      rw [ih]
      by_cases hk : k' = k
      · rw [if_pos hk, if_pos hk]
      · rw [if_neg hk, if_neg hk, alistGet,
          if_neg (by rw [he]; exact fun hc => hk hc.symm)]
    · rw [if_pos (by simpa using he)]
      rw [alistGet]
      by_cases he' : e.1 = k'
      · rw [if_pos he']
        have hk : ¬ k' = k := fun hc => he (he' ▸ hc)
        rw [if_neg hk, alistGet, if_pos he']
      · rw [if_neg he', ih]
        by_cases hk : k' = k
        · rw [if_pos hk, if_pos hk]
        · rw [if_neg hk, if_neg hk, alistGet, if_neg he']

theorem alistHas_eq_any (m : List (LStr × β)) (k : LStr) :
    alistHas m k = m.any fun e => e.1 = k := by
  induction m with
  | nil => rfl
  | cons e rest ih =>
    by_cases he : e.1 = k <;> simp [alistHas, he, ih]

theorem alistNodup_filter (m : List (LStr × β)) (p : LStr × β → Bool)
    (h : (m.map fun e => e.1).Nodup) :
    ((m.filter p).map fun e => e.1).Nodup :=
  h.sublist (List.Sublist.map _ (List.filter_sublist m))

theorem alistHas_perm (m m' : List (LStr × β)) (hp : m.Perm m') (k : LStr) :
    alistHas m k = alistHas m' k := by
  rw [alistHas_eq_any, alistHas_eq_any]
  apply Bool.eq_iff_iff.mpr
  rw [List.any_eq_true, List.any_eq_true]
  constructor
  · rintro ⟨e, he, hek⟩; exact ⟨e, hp.mem_iff.mp he, hek⟩
  · rintro ⟨e, he, hek⟩; exact ⟨e, hp.mem_iff.mpr he, hek⟩

theorem alistGet_perm (m m' : List (LStr × β)) (hp : m.Perm m')
    (hnd : (m.map fun e => e.1).Nodup) (k : LStr) :
    alistGet m k = alistGet m' k := by
  have hnd' : (m'.map fun e => e.1).Nodup := ((hp.map _).nodup_iff).mp hnd
  cases hg : alistGet m k with
  | none =>
    rw [alistGet_eq_none_iff] at hg
    symm
    rw [alistGet_eq_none_iff, ← alistHas_perm m m' hp]
    exact hg
  | some v =>
    have hm := (alistMem_iff_get m k v hnd).mpr hg
    exact ((alistMem_iff_get m' k v hnd').mp (hp.mem_iff.mp hm)).symm

/-- The guarded delete loop of `performConsolidation`, pointwise. -/
theorem delFoldGuard_get (ks : List LStr) (tk : LStr)
    (t : List (LStr × β)) (k : LStr) :
    alistGet (ks.foldl (fun t k => if k ≠ tk then alistDel t k else t) t) k
      = if k ≠ tk ∧ k ∈ ks then none else alistGet t k := by
  induction ks generalizing t with
  | nil => simp
  | cons k0 ks ih =>
    rw [List.foldl_cons, ih]
    by_cases hk : k ≠ tk ∧ k ∈ k0 :: ks
    · rw [if_pos hk]
      obtain ⟨h1, h2⟩ := hk
      rcases List.mem_cons.mp h2 with rfl | h2'
      · by_cases hmem : k ∈ ks
        · rw [if_pos ⟨h1, hmem⟩]
        · rw [if_neg (fun hc => hmem hc.2)]
          rw [if_pos h1, alistDel_get, if_pos rfl]
      · rw [if_pos ⟨h1, h2'⟩]
    · rw [if_neg hk]
      push_neg at hk
      by_cases ht : k = tk
      · rw [if_neg (fun hc : k ≠ tk ∧ k ∈ ks => hc.1 ht)]
        by_cases h0 : k0 ≠ tk
        · rw [if_pos h0, alistDel_get,
            if_neg (fun hc : k = k0 => h0 (hc.symm.trans ht))]
        · rw [if_neg h0]
      · have hks : k ∉ k0 :: ks := fun hc => absurd (hk ht) (by simp [hc])
        have hk0 : k ≠ k0 := fun hc => hks (hc ▸ List.mem_cons_self _ _)
        have hkks : k ∉ ks := fun hc => hks (List.mem_cons_of_mem _ hc)
        rw [if_neg (fun hc => hkks hc.2)]
        by_cases h0 : k0 ≠ tk
        · rw [if_pos h0, alistDel_get, if_neg hk0]
        · rw [if_neg h0]

/-- The unguarded delete loop of `performRename`, pointwise. -/
theorem delFoldAll_get (ks : List LStr) (t : List (LStr × β)) (k : LStr) :
    alistGet (ks.foldl (fun t k => alistDel t k) t) k
      = if k ∈ ks then none else alistGet t k := by
  induction ks generalizing t with
  | nil => simp
  | cons k0 ks ih =>
    rw [List.foldl_cons, ih]
    by_cases hk : k ∈ k0 :: ks
    · rw [if_pos hk]
      rcases List.mem_cons.mp hk with rfl | h2'
      · by_cases hmem : k ∈ ks
        · rw [if_pos hmem]
        · rw [if_neg hmem, alistDel_get, if_pos rfl]
      · rw [if_pos h2']
    · have hk0 : k ≠ k0 := fun hc => hk (hc ▸ List.mem_cons_self _ _)
      have hkks : k ∉ ks := fun hc => hk (List.mem_cons_of_mem _ hc)
      rw [if_neg hk, if_neg hkks, alistDel_get, if_neg hk0]

theorem get_some_mem_keysOf (ts : List (LStr × LStr)) (k v : LStr)
    (h : alistGet ts k = some v) :
    k ∈ (ts.filter fun e => e.2 = v).map fun e => e.1 := by
  induction ts with
  | nil => simp [alistGet] at h
  | cons e rest ih =>
    rw [alistGet] at h
    by_cases he : e.1 = k
    · rw [if_pos he] at h
      injection h with h
      simp [List.filter_cons, h, he]
    · rw [if_neg he] at h
      rw [List.filter_cons]
      by_cases hv : e.2 = v
      · simpa [hv] using Or.inr (ih h)
      · simpa [hv] using ih h

theorem delFoldGuard_nodup (ks : List LStr) (tk : LStr)
    (t : List (LStr × LStr)) (h : (t.map fun e => e.1).Nodup) :
    (((ks.foldl (fun t k => if k ≠ tk then alistDel t k else t) t).map
      fun e => e.1)).Nodup := by
  induction ks generalizing t with
  | nil => exact h
  | cons k0 ks ih =>
    rw [List.foldl_cons]
    apply ih
    by_cases h0 : k0 ≠ tk
    · rw [if_pos h0]; exact alistNodup_filter _ _ h
    · rw [if_neg h0]; exact h

theorem delFoldAll_nodup (ks : List LStr) (t : List (LStr × LStr))
    (h : (t.map fun e => e.1).Nodup) :
    (((ks.foldl (fun t k => alistDel t k) t).map fun e => e.1)).Nodup := by
  induction ks generalizing t with
  | nil => exact h
  | cons k0 ks ih =>
    rw [List.foldl_cons]
    exact ih _ (alistNodup_filter _ _ h)

/-- **C4** (amended): over a store with unique keys, when `dv.keys` lists
exactly the keys mapping to `dv.value`, consolidation onto `targetKey`
leaves exactly one key — `targetKey` — mapping to the value and removes
every other listed key; rename keeps the value under the new key
*provided the new key is not among the listed old keys* (the proviso the
counterexample forces). -/
theorem c4_consolidation_lossless
    (ts : List (LStr × LStr)) (dv : DuplicateValue) (targetKey newKey : LStr)
    (hnd : (ts.map fun e => e.1).Nodup)
    (hkeys : dv.keys = (ts.filter fun e => e.2 = dv.value).map fun e => e.1)
    (hfresh : newKey ∉ dv.keys) :
    (alistGet (consolidateDuplicates ts dv (.consolidate targetKey)) targetKey
        = some dv.value) ∧
    (∀ k, k ≠ targetKey →
      alistGet (consolidateDuplicates ts dv (.consolidate targetKey)) k
        ≠ some dv.value) ∧
    (∀ k ∈ dv.keys, k ≠ targetKey →
      alistHas (consolidateDuplicates ts dv (.consolidate targetKey)) k
        = false) ∧
    (alistGet (consolidateDuplicates ts dv (.rename newKey)) newKey
        = some dv.value) ∧
    (∀ k, k ≠ newKey →
      alistGet (consolidateDuplicates ts dv (.rename newKey)) k
        ≠ some dv.value) := by
  have hnd0 : ((alistSet ts targetKey dv.value).map fun e => e.1).Nodup :=
    alistNodup_set _ _ _ hnd
  have hnd1 := delFoldGuard_nodup dv.keys targetKey
    (alistSet ts targetKey dv.value) hnd0
  have hgetC : ∀ k, alistGet (consolidateDuplicates ts dv (.consolidate targetKey)) k
      = alistGet (dv.keys.foldl (fun t k => if k ≠ targetKey then alistDel t k else t)
          (alistSet ts targetKey dv.value)) k := by
    intro k
    rw [consolidateDuplicates, performConsolidation]
    exact (alistGet_perm _ _ (List.perm_insertionSort _ _).symm hnd1 k).symm
  have hnd0' : ((alistSet ts newKey dv.value).map fun e => e.1).Nodup :=
    alistNodup_set _ _ _ hnd
  have hnd1' := delFoldAll_nodup dv.keys (alistSet ts newKey dv.value) hnd0'
  have hgetR : ∀ k, alistGet (consolidateDuplicates ts dv (.rename newKey)) k
      = alistGet (dv.keys.foldl (fun t k => alistDel t k)
          (alistSet ts newKey dv.value)) k := by
    intro k
    rw [consolidateDuplicates, performRename]
    exact (alistGet_perm _ _ (List.perm_insertionSort _ _).symm hnd1' k).symm
  refine ⟨?_, ?_, ?_, ?_, ?_⟩
  · rw [hgetC, delFoldGuard_get,
      if_neg (fun hc : targetKey ≠ targetKey ∧ _ => hc.1 rfl)]
    exact alistGet_set_self ts targetKey dv.value
  · intro k hk
    rw [hgetC, delFoldGuard_get]
    by_cases hmem : k ∈ dv.keys
    · rw [if_pos ⟨hk, hmem⟩]
      exact fun hc => Option.noConfusion hc
    · rw [if_neg (fun hc => hmem hc.2), alistGet_set_ne _ _ _ _ hk]
      intro hc
      exact hmem (hkeys ▸ get_some_mem_keysOf ts k dv.value hc)
  · intro k hmem hk
    rw [alistHas_eq_isSome, hgetC, delFoldGuard_get, if_pos ⟨hk, hmem⟩]
    rfl
  · rw [hgetR, delFoldAll_get, if_neg hfresh]
    exact alistGet_set_self ts newKey dv.value
  · intro k hk
    rw [hgetR, delFoldAll_get]
    by_cases hmem : k ∈ dv.keys
    · rw [if_pos hmem]
      exact fun hc => Option.noConfusion hc
    · rw [if_neg hmem, alistGet_set_ne _ _ _ _ hk]
      intro hc
      exact hmem (hkeys ▸ get_some_mem_keysOf ts k dv.value hc)

/-- **C4** (counterexample): `performRename` inserts the new key first and
then deletes *all* listed keys, so renaming the duplicate group
`{value: "v", keys: [a, b]}` to the new key `"a"` deletes the freshly
written entry as well: the store ends empty and the duplicated value is
lost, contradicting the claim that rename never loses the value. -/
theorem c4_rename_can_lose_value :
    consolidateDuplicates
        [("a".toList, "v".toList), ("b".toList, "v".toList)]
        ⟨"v".toList, ["a".toList, "b".toList], ["en".toList]⟩
        (.rename "a".toList) = [] := by decide

/-- **C4** witness: consolidating `{value: "ذخیره",
keys: [save_btn, confirm_save]}` onto `save_btn` leaves `save_btn ↦ ذخیره`
present and `confirm_save` absent. -/
theorem c4_consolidation_lossless_witness :
    alistGet (consolidateDuplicates
        [("save_btn".toList, "ذخیره".toList), ("confirm_save".toList, "ذخیره".toList)]
        ⟨"ذخیره".toList, ["save_btn".toList, "confirm_save".toList], ["fa".toList]⟩
        (.consolidate "save_btn".toList)) "save_btn".toList
      = some "ذخیره".toList ∧
    alistHas (consolidateDuplicates
        [("save_btn".toList, "ذخیره".toList), ("confirm_save".toList, "ذخیره".toList)]
        ⟨"ذخیره".toList, ["save_btn".toList, "confirm_save".toList], ["fa".toList]⟩
        (.consolidate "save_btn".toList)) "confirm_save".toList = false := by
  have h := c4_consolidation_lossless
    [("save_btn".toList, "ذخیره".toList), ("confirm_save".toList, "ذخیره".toList)]
    ⟨"ذخیره".toList, ["save_btn".toList, "confirm_save".toList], ["fa".toList]⟩
    "save_btn".toList "new_key".toList (by decide) (by decide) (by decide)
  exact ⟨h.1, h.2.2.1 "confirm_save".toList (by decide) (by decide)⟩

/-- **C6** (code bug): the generator's word-preserving truncation can
exceed `maxLength`: with `maxLength = 3`, the key `"ab_cd_ef"` (reachable
from `createSemanticKey` on the transliteration `"ab cd ef"`) truncates to
`"ab_c"` of length 4, because the abbreviated partial segment is
`Math.max(1, …)` characters even when no room remains. -/
theorem c6_truncateKey_exceeds_maxLength :
    KeyGenerator.truncateKey 3 "ab_cd_ef".toList = "ab_c".toList ∧
    3 < (KeyGenerator.truncateKey 3 "ab_cd_ef".toList).length ∧
    KeyGenerator.createSemanticKey ⟨3, false, none⟩ "ab cd ef".toList none
      = "ab_c".toList := by decide

/-- `containsSeq` decides substring containment. -/
theorem containsSeq_iff (pat l : LStr) : containsSeq pat l = true ↔ pat <:+: l := by
  induction l with
  | nil => simp [containsSeq, List.isEmpty_iff]
  | cons c rest ih =>
    simp [containsSeq, ih, List.infix_cons_iff, List.isPrefixOf_iff_prefix]

/-- The `calculateConfidence` scan loop finds a multi-character table
entry contained in the text iff one exists. -/
theorem multiContains_iff (t : LStr) (entries : List (String × String)) :
    KeyGenerator.multiContains t entries = true ↔
      ∃ e ∈ entries, 1 < e.1.length ∧ (e.1.toList.map Char.toLower) <:+: t := by
  induction entries with
  | nil => simp [KeyGenerator.multiContains]
  | cons e rest ih =>
    rw [KeyGenerator.multiContains]
    split
    · rename_i h
      simp only [Bool.and_eq_true, decide_eq_true_eq, containsSeq_iff] at h
      simp only [true_iff]
      exact ⟨e, List.mem_cons_self _ _, h.1, h.2⟩
    · rename_i h
      simp only [Bool.and_eq_true, decide_eq_true_eq, containsSeq_iff] at h
      rw [ih]
      constructor
      · rintro ⟨a, ha, h1, h2⟩; exact ⟨a, List.mem_cons_of_mem _ ha, h1, h2⟩
      · rintro ⟨a, ha, h1, h2⟩
        rcases List.mem_cons.mp ha with rfl | ha'
        · exact absurd ⟨h1, h2⟩ h
        · exact ⟨a, ha', h1, h2⟩

/-- **C7** (counterexample): the claim's `+0.3` condition is an *exact*
multi-character table match, but the code adds `0.3` whenever the text
merely *contains* such an entry: on text `"xسلام"` (which contains the
entry `"سلام"` but equals no entry) with key `"ab"`, the code yields
`0.6` while the claimed formula yields `0.3`. -/
theorem c7_confidence_containment_counterexample :
    KeyGenerator.calculateConfidence "xسلام".toList "ab".toList ≠
      KeyGenerator.specConfidenceExactMatch "xسلام".toList "ab".toList := by
  have hm : KeyGenerator.multiContains ("xسلام".toList.map Char.toLower)
      KeyGenerator.TRANSLITERATION_MAP = true := by decide
  have he : KeyGenerator.exactMultiMatch "xسلام".toList = false := by decide
  simp only [KeyGenerator.calculateConfidence,
    KeyGenerator.specConfidenceExactMatch, hm, he]
  norm_num [jsMax, jsMin]

/-- **C7** (amended): the confidence score equals the clamp to `[0,1]` of
`0.5`, plus `0.3` exactly when the lower-cased original text *contains*
a multi-character transliteration-table entry (substring containment,
not exact match), plus `0.1` when the key contains `'_'` and has length
greater than 3, minus `0.2` when the key is shorter than 3 characters or
is the sentinel `'untranslated_text'`. -/
theorem c7_confidence_clamped_sum (text key : LStr) :
    KeyGenerator.calculateConfidence text key =
      jsMax 0 (jsMin 1 ((1 : ℚ)/2
        + (if ∃ e ∈ KeyGenerator.TRANSLITERATION_MAP, 1 < e.1.length ∧
              (e.1.toList.map Char.toLower) <:+: (text.map Char.toLower)
           then 3/10 else 0)
        + (if '_' ∈ key ∧ 3 < key.length then 1/10 else 0)
        - (if key.length < 3 ∨ key = "untranslated_text".toList
           then 1/5 else 0))) := by
  simp only [KeyGenerator.calculateConfidence]
  simp only [multiContains_iff, Bool.and_eq_true, Bool.or_eq_true,
    decide_eq_true_eq, List.elem_iff]
  split_ifs <;> ring_nf

/-- **C8**: reading a missing locale file yields the empty map and is not
an error; reading an existing but malformed file is a hard error; an
existing well-formed file yields its parsed map. -/
theorem c8_read_missing_empty_malformed_error :
    JSONManager.readTranslationFile none = Except.ok ([] : List (LStr × LStr)) ∧
    JSONManager.readTranslationFile (some .malformed)
      = Except.error "Failed to read translation file" ∧
    ∀ m : List (LStr × LStr),
      JSONManager.readTranslationFile (some (.parsed m)) = Except.ok m :=
  ⟨rfl, rfl, fun _ => rfl⟩

/-- **C10**: `normalizeKey` never modifies the validator's used-key set
(the source method and all its helpers — in particular
`KeyValidator.ensureUniqueness`, which only probes the set — contain no
`usedKeys.add`), so two consecutive calls with the same argument return
the identical key. -/
theorem c10_normalizeKey_preserves_usedKeys :
    ∀ (st : KeyValidator.State) (k : LStr),
      (KeyValidator.normalizeKeyM st k).2 = st ∧
      (KeyValidator.normalizeKeyM ((KeyValidator.normalizeKeyM st k).2) k).1
        = (KeyValidator.normalizeKeyM st k).1 :=
  fun _ _ => ⟨rfl, rfl⟩

open BackupSystem

theorem listBackups_perm (raw : List BackupInfo) : (listBackups raw).Perm raw :=
  List.perm_insertionSort _ raw

theorem listBackups_sorted (raw : List BackupInfo) :
    (listBackups raw).Sorted fun a b => b.timestamp ≤ a.timestamp := by
  letI : IsTotal BackupInfo (fun a b => b.timestamp ≤ a.timestamp) :=
    ⟨fun a b => Int.le_total b.timestamp a.timestamp⟩
  letI : IsTrans BackupInfo (fun a b => b.timestamp ≤ a.timestamp) :=
    ⟨fun _ _ _ hab hbc => le_trans hbc hab⟩
  exact List.sorted_insertionSort _ raw

/-- **C9**: `cleanupOldBackups keep` deletes exactly the backups that are
not among the `keep` most recent: nothing when the count is at most
`keep`; otherwise the tail of the timestamp-descending listing after its
first `keep` entries — so the kept prefix plus the deleted backups is a
permutation of all backups, and every deleted backup is no newer than
every kept one. -/
theorem c9_cleanup_keeps_most_recent (raw : List BackupInfo) (keep : Nat) :
    (raw.length ≤ keep → cleanupOldBackups raw keep = []) ∧
    cleanupOldBackups raw keep = (listBackups raw).drop keep ∧
    ((listBackups raw).take keep ++ cleanupOldBackups raw keep).Perm raw ∧
    (∀ d ∈ cleanupOldBackups raw keep, ∀ b ∈ (listBackups raw).take keep,
      d.timestamp ≤ b.timestamp) := by
  have hlen : (listBackups raw).length = raw.length :=
    (listBackups_perm raw).length_eq
  have hdrop : cleanupOldBackups raw keep = (listBackups raw).drop keep := by
    rw [cleanupOldBackups]
    split
    · rename_i h
      symm
      exact List.drop_eq_nil_of_le h
    · rfl
  refine ⟨?_, hdrop, ?_, ?_⟩
  · intro h
    rw [cleanupOldBackups]
    rw [if_pos (by rw [hlen]; exact h)]
  · rw [hdrop, List.take_append_drop]
    exact listBackups_perm raw
  · intro d hd b hb
    rw [hdrop] at hd
    exact (listBackups_sorted raw).rel_of_mem_take_of_mem_drop hb hd
/-- **C9** witness: with three backups at timestamps 1, 3, 2, keeping 5
deletes nothing, and keeping 2 deletes exactly the oldest (timestamp 1). -/
theorem c9_cleanup_keeps_most_recent_witness :
    cleanupOldBackups
        [⟨"b1", 1, [], "first"⟩, ⟨"b2", 3, [], "third"⟩, ⟨"b3", 2, [], "second"⟩] 5
      = [] ∧
    cleanupOldBackups
        [⟨"b1", 1, [], "first"⟩, ⟨"b2", 3, [], "third"⟩, ⟨"b3", 2, [], "second"⟩] 2
      = [⟨"b1", 1, [], "first"⟩] := by
  constructor
  · exact (c9_cleanup_keeps_most_recent _ 5).1 (by decide)
  · have h := (c9_cleanup_keeps_most_recent
      [⟨"b1", 1, [], "first"⟩, ⟨"b2", 3, [], "third"⟩, ⟨"b3", 2, [], "second"⟩] 2).2.1
    rw [h]
    decide

/-! ## C1: batch key uniqueness -/

open KeyManager

theorem natDigits_ne_nil (n : Nat) : natDigits n ≠ [] := by
  rw [natDigits]
  split
  · exact fun hc => List.noConfusion hc
  · exact fun hc => absurd (List.append_eq_nil.mp hc).2 (fun h => List.noConfusion h)

theorem digitChar_toNat (a : Nat) (h : a < 10) : (digitChar a).toNat = 48 + a := by
  interval_cases a <;> decide

theorem digitChar_inj (a b : Nat) (ha : a < 10) (hb : b < 10)
    (h : digitChar a = digitChar b) : a = b := by
  have h1 := digitChar_toNat a ha
  have h2 := digitChar_toNat b hb
  rw [h] at h1
  omega

theorem natDigits_lt {n : Nat} (h : n < 10) : natDigits n = [digitChar n] := by
  rw [natDigits]; exact dif_pos h

theorem natDigits_ge {n : Nat} (h : ¬ n < 10) :
    natDigits n = natDigits (n / 10) ++ [digitChar (n % 10)] := by
  rw [natDigits]; exact dif_neg h

theorem natDigits_inj : ∀ (n m : Nat), natDigits n = natDigits m → n = m := by
  intro n
  induction n using Nat.strong_induction_on with
  | _ n ih =>
    intro m h
    by_cases hn : n < 10
    · by_cases hm : m < 10
      · rw [natDigits_lt hn, natDigits_lt hm] at h
        injection h with h1 htl
        exact digitChar_inj n m hn hm h1
      · rw [natDigits_lt hn, natDigits_ge hm] at h
        exfalso
        have hl := congrArg List.length h
        rw [List.length_append] at hl
        simp only [List.length_cons, List.length_nil, List.length_singleton] at hl
        have := List.length_pos.mpr (natDigits_ne_nil (m / 10))
        omega
    · by_cases hm : m < 10
      · rw [natDigits_ge hn, natDigits_lt hm] at h
        exfalso
        have hl := congrArg List.length h
        rw [List.length_append] at hl
        simp only [List.length_cons, List.length_nil, List.length_singleton] at hl
        have := List.length_pos.mpr (natDigits_ne_nil (n / 10))
        omega
      · rw [natDigits_ge hn, natDigits_ge hm] at h
        have h1 := List.append_inj_right' h (by rfl)
        have h2 := List.append_inj_left' h (by rfl)
        injection h1 with h1 htl
        have hmod : n % 10 = m % 10 :=
          digitChar_inj _ _ (Nat.mod_lt _ (by omega)) (Nat.mod_lt _ (by omega)) h1
        have hdiv : n / 10 = m / 10 :=
          ih (n / 10) (Nat.div_lt_self (by omega) (by omega)) (m / 10) h2
        omega

theorem candKey_inj (k : LStr) (a b : Nat) (h : candKey k a = candKey k b) :
    a = b := by
  rw [candKey, candKey] at h
  have h2 := List.append_cancel_left h
  injection h2 with hhd h2
  exact natDigits_inj a b h2

theorem exists_unused (used : List LStr) (k : LStr) (n : Nat) :
    ∃ j < used.length + 1, candKey k (n + j) ∉ used := by
  by_contra hc
  push_neg at hc
  have hmap : ∀ j ∈ Finset.range (used.length + 1), candKey k (n + j) ∈ used.toFinset := by
    intro j hj
    rw [List.mem_toFinset]
    exact hc j (Finset.mem_range.mp hj)
  have hinj : ∀ a ∈ Finset.range (used.length + 1),
      ∀ b ∈ Finset.range (used.length + 1),
      candKey k (n + a) = candKey k (n + b) → a = b := by
    intro a _ b _ hab
    have := candKey_inj k (n + a) (n + b) hab
    omega
  have hcard := Finset.card_le_card_of_injOn (fun j => candKey k (n + j)) hmap hinj
  rw [Finset.card_range] at hcard
  have : used.toFinset.card ≤ used.length := List.toFinset_card_le used
  omega

theorem firstUnused_not_mem (used : List LStr) (k : LStr) :
    ∀ (fuel n : Nat), (∃ j < fuel, candKey k (n + j) ∉ used) →
      KeyValidator.firstUnused used k fuel n ∉ used := by
  intro fuel
  induction fuel with
  | zero => rintro n ⟨j, hj, -⟩; omega
  | succ fuel ih =>
    rintro n ⟨j, hj, hout⟩
    rw [KeyValidator.firstUnused]
    split
    · rename_i hmem
      apply ih
      rcases Nat.eq_zero_or_pos j with rfl | hjpos
      · simp only [Nat.add_zero] at hout
        exact absurd hmem hout
      · exact ⟨j - 1, by omega, by
          have : n + 1 + (j - 1) = n + j := by omega
          rw [this]; exact hout⟩
    · exact fun hc => absurd hc (by assumption)

theorem ensureUniqueness_not_mem (used : List LStr) (k : LStr) :
    KeyValidator.ensureUniqueness used k ∉ used := by
  rw [KeyValidator.ensureUniqueness]
  split
  · apply firstUnused_not_mem
    obtain ⟨j, hj, hout⟩ := exists_unused used k 1
    exact ⟨j, by omega, hout⟩
  · assumption

theorem generateUniqueKey_not_mem (used : List LStr) (k : LStr) :
    KeyValidator.generateUniqueKey used k ∉ used := by
  rw [KeyValidator.generateUniqueKey]
  apply firstUnused_not_mem
  obtain ⟨j, hj, hout⟩ := exists_unused used k 1
  exact ⟨j, by omega, hout⟩

theorem validateKey_isValid_not_used (used : List LStr) (key : LStr)
    (h : (KeyValidator.validateKey used key).isValid = true) : key ∉ used := by
  intro hmem
  rw [KeyValidator.validateKey] at h
  split at h
  · simp at h
  · simp only [if_pos hmem] at h
    rw [List.isEmpty_iff] at h
    simp only [List.append_eq_nil] at h
    exact List.noConfusion h.2

theorem normalizeKey_not_mem (used : List LStr) (key : LStr) (hk : ¬ key.isEmpty) :
    KeyValidator.normalizeKey used key ∉ used := by
  rw [KeyValidator.normalizeKey, if_neg (by simpa using hk)]
  exact ensureUniqueness_not_mem used _

theorem normalizedIfInvalid_not_mem (used : List LStr) (gkey : LStr)
    (hk : ¬ gkey.isEmpty) : KeyManager.normalizedIfInvalid used gkey ∉ used := by
  rw [KeyManager.normalizedIfInvalid]
  split
  · exact validateKey_isValid_not_used used gkey (by assumption)
  · exact normalizeKey_not_mem used gkey hk

theorem handleKeyDuplicate_not_mem (valUsed : List LStr) (key : LStr)
    (ctx : Option LStr) : KeyManager.handleKeyDuplicate valUsed key ctx ∉ valUsed := by
  have hnum : KeyValidator.firstUnused valUsed key (valUsed.length + 1) 1 ∉ valUsed := by
    apply firstUnused_not_mem
    obtain ⟨j, hj, hout⟩ := exists_unused valUsed key 1
    exact ⟨j, by omega, hout⟩
  rw [KeyManager.handleKeyDuplicate.eq_def]
  match ctx with
  | none => exact hnum
  | some c =>
    simp only
    split
    · exact hnum
    · split
      · exact hnum
      · assumption

theorem resolvedKey_not_mem (valUsed : List LStr) (detector : DuplicateDetector.State)
    (key0 locale : LStr) (ctx : Option LStr) (h0 : key0 ∉ valUsed) :
    KeyManager.resolvedKey valUsed detector key0 locale ctx ∉ valUsed := by
  rw [KeyManager.resolvedKey]
  split
  · exact handleKeyDuplicate_not_mem valUsed key0 ctx
  · exact h0

theorem firstUnusedG_ne_nil (used : List LStr) (k : LStr) :
    ∀ (fuel n : Nat), KeyValidator.firstUnused used k fuel n ≠ [] := by
  intro fuel
  induction fuel with
  | zero =>
    intro n
    rw [KeyValidator.firstUnused, candKey]
    rcases k with _ | ⟨c, rest⟩ <;> exact fun hc => List.noConfusion hc
  | succ fuel ih =>
    intro n
    rw [KeyValidator.firstUnused]
    split
    · exact ih (n + 1)
    · rw [candKey]
      rcases k with _ | ⟨c, rest⟩ <;> exact fun hc => List.noConfusion hc

theorem truncateGen_ne_nil (maxLen : Nat) (k : LStr) (hk : k ≠ [])
    (hm : 1 ≤ maxLen) : KeyGenerator.truncateKey maxLen k ≠ [] := by
  have htake : k.take maxLen ≠ [] := by
    intro hc
    rcases List.take_eq_nil_iff.mp hc with h | h
    · omega
    · exact hk h
  rw [KeyGenerator.truncateKey]
  split
  · exact hk
  · dsimp only
    split
    · exact htake
    · split
      · exact htake
      · rename_i hr
        rw [List.isEmpty_iff] at hr
        exact hr

theorem createSemanticKey_ne_nil (opts : KeyGenerator.Options) (t : LStr)
    (ctx : Option LStr) (hm : 1 ≤ opts.maxLength) :
    KeyGenerator.createSemanticKey opts t ctx ≠ [] := by
  rw [KeyGenerator.createSemanticKey]
  generalize hG : (if (KeyGenerator.rawSemanticKey opts t ctx).isEmpty then
      "untranslated_text".toList else KeyGenerator.rawSemanticKey opts t ctx) = key
  have hkey : key ≠ [] := by
    rw [← hG]
    split
    · exact fun hc => List.noConfusion hc
    · rename_i hne
      rw [List.isEmpty_iff] at hne
      exact hne
  split
  · exact truncateGen_ne_nil _ _ hkey hm
  · exact hkey

theorem generateKey_key_eq (opts : KeyGenerator.Options) (used : List LStr)
    (text : LStr) (ctx : Option LStr) :
    (KeyGenerator.generateKey opts used text ctx).1.key
      = (KeyGenerator.ensureUniqueness used
          (KeyGenerator.createSemanticKey opts
            (KeyGenerator.transliterateText (KeyGenerator.normalizeText text))
            ctx)).1 := rfl

theorem ensureUniquenessG_ne_nil (used : List LStr) (k : LStr) (hk : k ≠ []) :
    (KeyGenerator.ensureUniqueness used k).1 ≠ [] := by
  rw [KeyGenerator.ensureUniqueness]
  simp only
  split
  · exact firstUnusedG_ne_nil used k _ _
  · exact hk

theorem generateKey_key_ne_nil (opts : KeyGenerator.Options) (used : List LStr)
    (text : LStr) (ctx : Option LStr) (hm : 1 ≤ opts.maxLength) :
    (KeyGenerator.generateKey opts used text ctx).1.key ≠ [] := by
  rw [generateKey_key_eq]
  exact ensureUniquenessG_ne_nil _ _ (createSemanticKey_ne_nil opts _ ctx hm)

theorem processTextForKey_finalKey (opts : KeyGenerator.Options)
    (st : KeyManager.State) (text locale : LStr) (ctx : Option LStr) :
    (processTextForKey opts st text locale ctx).1.finalKey
      = resolvedKey st.valUsed st.detector
          (normalizedIfInvalid st.valUsed
            (KeyGenerator.generateKey opts st.genUsed text ctx).1.key)
          locale ctx := rfl

theorem processTextForKey_valUsed (opts : KeyGenerator.Options)
    (st : KeyManager.State) (text locale : LStr) (ctx : Option LStr) :
    (processTextForKey opts st text locale ctx).2.valUsed
      = (if (processTextForKey opts st text locale ctx).1.finalKey ∈ st.valUsed
         then st.valUsed
         else st.valUsed ++ [(processTextForKey opts st text locale ctx).1.finalKey]) :=
  rfl

theorem processTextForKey_fresh (opts : KeyGenerator.Options)
    (st : KeyManager.State) (text locale : LStr) (ctx : Option LStr)
    (hm : 1 ≤ opts.maxLength) :
    (processTextForKey opts st text locale ctx).1.finalKey ∉ st.valUsed ∧
    (processTextForKey opts st text locale ctx).2.valUsed
      = st.valUsed ++ [(processTextForKey opts st text locale ctx).1.finalKey] := by
  have hfresh : (processTextForKey opts st text locale ctx).1.finalKey ∉ st.valUsed := by
    rw [processTextForKey_finalKey]
    apply resolvedKey_not_mem
    apply normalizedIfInvalid_not_mem
    rw [List.isEmpty_iff]
    exact generateKey_key_ne_nil opts st.genUsed text ctx hm
  refine ⟨hfresh, ?_⟩
  rw [processTextForKey_valUsed, if_neg hfresh]

theorem generateKeys_invariant (opts : KeyGenerator.Options)
    (hm : 1 ≤ opts.maxLength) :
    ∀ (ms : List MatchInput) (st : KeyManager.State) (acc : List KeyGenerator.GeneratedKey),
      (∀ g ∈ acc, g.key ∈ st.valUsed) → (acc.map fun g => g.key).Nodup →
      (ms.foldl
          (fun acc m =>
            let (r, st') := processTextForKey opts acc.2 m.text "en".toList m.context
            (acc.1 ++ [⟨r.finalKey, m.text, r.generatedKey.confidence,
              r.generatedKey.suggestions⟩], st'))
          (acc, st)).1.length = acc.length + ms.length ∧
      ((ms.foldl
          (fun acc m =>
            let (r, st') := processTextForKey opts acc.2 m.text "en".toList m.context
            (acc.1 ++ [⟨r.finalKey, m.text, r.generatedKey.confidence,
              r.generatedKey.suggestions⟩], st'))
          (acc, st)).1.map fun g => g.key).Nodup := by
  intro ms
  induction ms with
  | nil =>
    intro st acc hsub hnd
    exact ⟨by simp, hnd⟩
  | cons m ms ih =>
    intro st acc hsub hnd
    rw [List.foldl_cons]
    have hstep := processTextForKey_fresh opts st m.text "en".toList m.context hm
    have hsub' : ∀ g ∈ acc ++ [(⟨(processTextForKey opts st m.text "en".toList m.context).1.finalKey,
        m.text,
        (processTextForKey opts st m.text "en".toList m.context).1.generatedKey.confidence,
        (processTextForKey opts st m.text "en".toList m.context).1.generatedKey.suggestions⟩ :
          KeyGenerator.GeneratedKey)],
        g.key ∈ (processTextForKey opts st m.text "en".toList m.context).2.valUsed := by
      intro g hg
      rw [hstep.2]
      rcases List.mem_append.mp hg with hg | hg
      · exact List.mem_append.mpr (Or.inl (hsub g hg))
      · rw [List.mem_singleton] at hg
        subst hg
        exact List.mem_append.mpr (Or.inr (List.mem_singleton.mpr rfl))
    have hnd' : ((acc ++ [(⟨(processTextForKey opts st m.text "en".toList m.context).1.finalKey,
        m.text,
        (processTextForKey opts st m.text "en".toList m.context).1.generatedKey.confidence,
        (processTextForKey opts st m.text "en".toList m.context).1.generatedKey.suggestions⟩ :
          KeyGenerator.GeneratedKey)]).map fun g => g.key).Nodup := by
      rw [List.map_append]
      rw [List.nodup_append]
      refine ⟨hnd, by simp, ?_⟩
      intro a ha hb
      simp only [List.map_cons, List.map_nil, List.mem_singleton] at hb
      subst hb
      obtain ⟨g, hg, hgk⟩ := List.mem_map.mp ha
      exact hstep.1 (hgk ▸ hsub g hg)
    have := ih _ _ hsub' hnd'
    constructor
    · rw [this.1]
      simp only [List.length_append, List.length_cons, List.length_nil]
      omega
    · exact this.2

/-- **C1**: processing a batch of matches with pairwise-distinct texts
through `KeyManager.generateKeys` (with any starting state and a positive
length ceiling) yields one `GeneratedKey` per match, with pairwise
distinct keys — the uniqueness loop guarantees every final key is fresh
with respect to the validator used-key set, which grows with each item. -/
theorem c1_batch_keys_pairwise_distinct (opts : KeyGenerator.Options)
    (st : KeyManager.State) (ms : List MatchInput)
    (hm : 1 ≤ opts.maxLength)
    (_hdist : (ms.map fun m => m.text).Nodup) :
    (generateKeys opts st ms).1.length = ms.length ∧
    ((generateKeys opts st ms).1.map fun g => g.key).Nodup := by
  have h := generateKeys_invariant opts hm ms st [] (by intro g hg; simp at hg)
    (by simp)
  rw [generateKeys]
  exact ⟨by rw [h.1]; simp, h.2⟩

theorem c1_batch_witness :
    (generateKeys ⟨50, true, none⟩ initState
        [⟨"hello".toList, none⟩, ⟨"world".toList, none⟩,
         ⟨"hello world".toList, some "btn".toList⟩]).1.length = 3 ∧
    ((generateKeys ⟨50, true, none⟩ initState
        [⟨"hello".toList, none⟩, ⟨"world".toList, none⟩,
         ⟨"hello world".toList, some "btn".toList⟩]).1.map fun g => g.key).Nodup := by
  have h := c1_batch_keys_pairwise_distinct ⟨50, true, none⟩ initState
    [⟨"hello".toList, none⟩, ⟨"world".toList, none⟩,
     ⟨"hello world".toList, some "btn".toList⟩]
    (by norm_num) (by decide)
  exact ⟨h.1, h.2⟩

/-! ### C3: idempotence lemma chain -/

theorem toLower_isKeyChar (c : Char) (h : isKeyChar c = true) :
    Char.toLower c = c := by
  rw [Char.toLower]
  simp only [isKeyChar, Bool.or_eq_true, Bool.and_eq_true, decide_eq_true_eq] at h
  have h65 : ¬ (c.toNat ≥ 65 ∧ c.toNat ≤ 90) := by
    rintro ⟨hc1, hc2⟩
    rcases h with (⟨h1, h2⟩ | ⟨h1, h2⟩) | h1
    · have g1 : (97 : Nat) ≤ c.toNat := h1
      omega
    · have g1 : c.toNat ≤ (57 : Nat) := h2
      omega
    · rw [h1] at hc2
      have g : ('_').toNat = 95 := rfl
      rw [g] at hc2
      omega
  rw [if_neg h65]

theorem map_toLower_id (k : LStr) (h : ∀ c ∈ k, isKeyChar c = true) :
    k.map Char.toLower = k := by
  induction k with
  | nil => rfl
  | cons c rest ih =>
    rw [List.map_cons, toLower_isKeyChar c (h c (by simp)),
      ih fun d hd => h d (List.mem_cons_of_mem _ hd)]

theorem hasDD_cons₂ (a b : Char) (rest : LStr) :
    hasDD (a :: b :: rest)
      = ((decide (a = '_') && decide (b = '_')) || hasDD (b :: rest)) := rfl

theorem hasDD_iff_infix (l : LStr) :
    hasDD l = true ↔ ['_', '_'] <:+: l := by
  induction l with
  | nil =>
    rw [hasDD]
    constructor
    · intro h; exact Bool.noConfusion h
    · intro h; exact List.noConfusion (List.eq_nil_of_infix_nil h)
  | cons c rest ih =>
    rcases rest with _ | ⟨d, rest'⟩
    · rw [hasDD]
      constructor
      · intro h; exact Bool.noConfusion h
      · intro h
        rcases h with ⟨s, t, hst⟩
        have hl := congrArg List.length hst
        simp at hl
        omega
    · rw [hasDD_cons₂, List.infix_cons_iff]
      constructor
      · intro h
        rcases Bool.or_eq_true _ _ |>.mp h with h | h
        · simp only [Bool.and_eq_true, decide_eq_true_eq] at h
          left
          rw [h.1, h.2]
          exact ⟨rest', by simp⟩
        · right; exact ih.mp h
      · rintro (h | h)
        · rcases h with ⟨t, ht⟩
          simp only [List.cons_append, List.nil_append] at ht
          injection ht with h1 h2
          injection h2 with h2 h3
          rw [← h1, ← h2]
          simp
        · exact Bool.or_eq_true _ _ |>.mpr (Or.inr (ih.mpr h))

theorem hasDD_false_of_infix (l l' : LStr) (h : l' <:+: l)
    (hl : hasDD l = false) : hasDD l' = false := by
  by_contra hc
  rw [Bool.not_eq_false, hasDD_iff_infix] at hc
  rw [← Bool.not_eq_true, hasDD_iff_infix] at hl
  exact hl (hc.trans h)

theorem hasDD_tail (c : Char) (rest : LStr) (h : hasDD (c :: rest) = false) :
    hasDD rest = false :=
  hasDD_false_of_infix _ _ ⟨[c], [], by simp⟩ h

theorem hasDD_false_of_no_und (l : LStr) (h : ∀ c ∈ l, c ≠ '_') :
    hasDD l = false := by
  induction l with
  | nil => rfl
  | cons c rest ih =>
    rcases rest with _ | ⟨d, rest'⟩
    · rfl
    · rw [hasDD_cons₂]
      rw [decide_eq_false (h d (by simp))]
      simp only [Bool.and_false, Bool.false_or]
      exact ih fun x hx => h x (List.mem_cons_of_mem _ hx)

theorem leadUnd_eq_head? (l : LStr) :
    leadUnd l = decide (l.head? = some '_') := by
  rcases l with _ | ⟨c, rest⟩
  · rfl
  · rw [leadUnd]
    simp

theorem collapseUnd_eq_self (l : LStr) (h : hasDD l = false) :
    collapseUnd l = l := by
  induction l with
  | nil => rfl
  | cons c rest ih =>
    rcases rest with _ | ⟨d, rest'⟩
    · rfl
    · rw [hasDD_cons₂] at h
      simp only [Bool.or_eq_false_iff, Bool.and_eq_false_iff] at h
      rw [collapseUnd]
      rw [if_neg (by
        rcases h.1 with h1 | h1 <;> simp [of_decide_eq_false h1])]
      rw [ih h.2]

theorem mem_collapseUnd (l : LStr) (c : Char) (h : c ∈ collapseUnd l) :
    c ∈ l := by
  suffices H : ∀ (n : Nat) (l : LStr), l.length = n → c ∈ collapseUnd l → c ∈ l by
    exact H l.length l rfl h
  clear h l
  intro n
  induction n using Nat.strong_induction_on with
  | _ n ih =>
    intro l hn h
    subst hn
    rcases l with _ | ⟨a, (_ | ⟨d, rest'⟩)⟩
    · rw [collapseUnd] at h; exact h
    · rw [collapseUnd] at h; exact h
    · rw [collapseUnd] at h
      split at h
      · exact List.mem_cons_of_mem _ (ih _ (by simp) _ rfl h)
      · rcases List.mem_cons.mp h with rfl | h
        · exact List.mem_cons_self _ _
        · exact List.mem_cons_of_mem _ (ih _ (by simp) _ rfl h)

theorem collapseUnd_head (l : LStr) : (collapseUnd l).head? = l.head? := by
  suffices H : ∀ (n : Nat) (l : LStr), l.length = n →
      (collapseUnd l).head? = l.head? by
    exact H l.length l rfl
  clear l
  intro n
  induction n using Nat.strong_induction_on with
  | _ n ih =>
    intro l hn
    subst hn
    rcases l with _ | ⟨c, (_ | ⟨d, rest⟩)⟩
    · rfl
    · rfl
    · rw [collapseUnd]
      split
      · rename_i hcd
        simp only [Bool.and_eq_true, decide_eq_true_eq] at hcd
        rw [ih (d :: rest).length (by simp) (d :: rest) rfl]
        simp [hcd.1, hcd.2]
      · rfl

theorem collapseUnd_noDD (l : LStr) : hasDD (collapseUnd l) = false := by
  suffices H : ∀ (n : Nat) (l : LStr), l.length = n →
      hasDD (collapseUnd l) = false by
    exact H l.length l rfl
  clear l
  intro n
  induction n using Nat.strong_induction_on with
  | _ n ih =>
    intro l hn
    subst hn
    rcases l with _ | ⟨c, (_ | ⟨d, rest⟩)⟩
    · rfl
    · rfl
    · rw [collapseUnd]
      split
      · exact ih (d :: rest).length (by simp) (d :: rest) rfl
      · rename_i hcd
        have hhd := collapseUnd_head (d :: rest)
        rcases hx : collapseUnd (d :: rest) with _ | ⟨d', tl⟩
        · rfl
        · rw [hx] at hhd
          simp only [List.head?_cons] at hhd
          injection hhd with hd'
          rw [hasDD_cons₂]
          have hrec := ih (d :: rest).length (by simp) (d :: rest) rfl
          rw [hx] at hrec
          rw [hrec]
          rw [Bool.or_false]
          subst hd'
          simp only [Bool.and_eq_false_iff]
          by_cases hc : c = '_'
          · right
            by_cases hdu : d' = '_'
            · exact absurd (by rw [hc, hdu]; simp) hcd
            · exact decide_eq_false hdu
          · left
            exact decide_eq_false hc

theorem head?_dropWhile_ne (p : Char → Bool) (l : LStr) (c : Char)
    (h : (l.dropWhile p).head? = some c) : p c = false := by
  induction l with
  | nil => simp [List.dropWhile] at h
  | cons a rest ih =>
    rw [List.dropWhile_cons] at h
    split at h
    · exact ih h
    · rename_i hp
      rw [List.head?_cons] at h
      injection h with h
      subst h
      exact Bool.of_not_eq_true hp

theorem dropWhile_eq_self_of_head (p : Char → Bool) (l : LStr)
    (h : ∀ c, l.head? = some c → p c = false) : l.dropWhile p = l := by
  rcases l with _ | ⟨a, rest⟩
  · rfl
  · rw [List.dropWhile_cons, if_neg]
    rw [h a rfl]
    exact fun hc => Bool.noConfusion hc

theorem trimUnd_eq_self (l : LStr) (h1 : leadUnd l = false)
    (h2 : leadUnd l.reverse = false) : trimUnd l = l := by
  rw [trimUnd]
  rw [dropWhile_eq_self_of_head _ l (by
    intro c hc
    rw [leadUnd_eq_head?, hc] at h1
    simpa using h1)]
  rw [dropWhile_eq_self_of_head _ l.reverse (by
    intro c hc
    rw [leadUnd_eq_head?, hc] at h2
    simpa using h2)]
  exact List.reverse_reverse l

theorem trimUnd_infix_self (l : LStr) : trimUnd l <:+: l := by
  rw [trimUnd]
  have h1 : l.dropWhile (fun c => c = '_') <:+ l := List.dropWhile_suffix _
  have h2 : (l.dropWhile fun c => c = '_').reverse.dropWhile (fun c => c = '_')
      <:+ (l.dropWhile fun c => c = '_').reverse := List.dropWhile_suffix _
  have h3 : ((l.dropWhile fun c => c = '_').reverse.dropWhile
      (fun c => c = '_')).reverse <+: (l.dropWhile fun c => c = '_') := by
    rcases h2 with ⟨u, hu⟩
    refine ⟨u.reverse, ?_⟩
    rw [← List.reverse_append, hu, List.reverse_reverse]
  exact List.IsInfix.trans h3.isInfix h1.isInfix

theorem trimUnd_lead (l : LStr) : leadUnd (trimUnd l) = false := by
  rw [leadUnd_eq_head?]
  rcases hx : (trimUnd l).head? with _ | c
  · rfl
  · rw [trimUnd] at hx
    rw [List.head?_reverse] at hx
    have hsfx : (l.dropWhile fun c => c = '_').reverse.dropWhile (fun c => c = '_')
        <:+ (l.dropWhile fun c => c = '_').reverse := List.dropWhile_suffix _
    have hne : (l.dropWhile fun c => c = '_').reverse.dropWhile
        (fun c => c = '_') ≠ [] := by
      intro hc
      rw [hc] at hx
      exact Option.noConfusion hx
    have hgl : ((l.dropWhile fun c => c = '_').reverse.dropWhile
        (fun c => c = '_')).getLast? =
        ((l.dropWhile fun c => c = '_').reverse).getLast? := by
      rcases hsfx with ⟨u, hu⟩
      calc ((l.dropWhile fun c => c = '_').reverse.dropWhile
            (fun c => c = '_')).getLast?
          = (u ++ (l.dropWhile fun c => c = '_').reverse.dropWhile
              (fun c => c = '_')).getLast? :=
            (List.getLast?_append_of_ne_nil u hne).symm
        _ = ((l.dropWhile fun c => c = '_').reverse).getLast? := by rw [hu]
    rw [hgl, List.getLast?_reverse] at hx
    have := head?_dropWhile_ne (fun c => c = '_') l c hx
    simpa using this

theorem trimUnd_trail (l : LStr) : leadUnd (trimUnd l).reverse = false := by
  rw [leadUnd_eq_head?]
  rw [trimUnd, List.reverse_reverse]
  rcases hx : ((l.dropWhile fun c => c = '_').reverse.dropWhile
      fun c => c = '_').head? with _ | c
  · rfl
  · have := head?_dropWhile_ne (fun c => c = '_')
      (l.dropWhile fun c => c = '_').reverse c hx
    simpa using this

theorem sanitizeKey_chars (x : LStr) :
    ∀ c ∈ KeyValidator.sanitizeKey x, isKeyChar c = true := by
  intro c hc
  rw [KeyValidator.sanitizeKey] at hc
  have hc2 := (trimUnd_infix_self _).mem hc
  have hc3 := mem_collapseUnd _ _ hc2
  obtain ⟨d, _, hd⟩ := List.mem_map.mp hc3
  by_cases hkd : isKeyChar d
  · rw [if_pos hkd] at hd; rw [← hd]; exact hkd
  · rw [if_neg hkd] at hd; rw [← hd]; rfl

theorem sanitizeKey_noDD (x : LStr) :
    hasDD (KeyValidator.sanitizeKey x) = false := by
  rw [KeyValidator.sanitizeKey]
  exact hasDD_false_of_infix _ _ (trimUnd_infix_self _) (collapseUnd_noDD _)

theorem sanitizeKey_lead (x : LStr) :
    leadUnd (KeyValidator.sanitizeKey x) = false := trimUnd_lead _

theorem sanitizeKey_trail (x : LStr) :
    leadUnd (KeyValidator.sanitizeKey x).reverse = false := trimUnd_trail _

theorem splitUnd_ne_nil (l : LStr) : splitUnd l ≠ [] := by
  rcases l with _ | ⟨c, rest⟩
  · rw [splitUnd]; exact fun hc => List.noConfusion hc
  · rw [splitUnd]
    split
    · exact fun hc => List.noConfusion hc
    · split
      · exact fun hc => List.noConfusion hc
      · exact fun hc => List.noConfusion hc

theorem mem_part_mem (l : LStr) (p : LStr) (c : Char)
    (hp : p ∈ splitUnd l) (hc : c ∈ p) : c ∈ l := by
  induction l generalizing p with
  | nil =>
    rw [splitUnd] at hp
    rw [List.mem_singleton] at hp
    subst hp
    exact absurd hc (List.not_mem_nil c)
  | cons a rest ih =>
    rw [splitUnd] at hp
    split at hp
    · rcases List.mem_cons.mp hp with rfl | hp
      · exact absurd hc (List.not_mem_nil c)
      · exact List.mem_cons_of_mem _ (ih _ hp hc)
    · rename_i ha
      rcases hq : splitUnd rest with _ | ⟨q, qs⟩
      · exact absurd hq (splitUnd_ne_nil rest)
      · rw [hq] at hp
        rcases List.mem_cons.mp hp with rfl | hp
        · rcases List.mem_cons.mp hc with rfl | hc
          · exact List.mem_cons_self _ _
          · exact List.mem_cons_of_mem _ (ih q (by rw [hq]; exact List.mem_cons_self _ _) hc)
        · exact List.mem_cons_of_mem _ (ih p (by rw [hq]; exact List.mem_cons_of_mem _ hp) hc)

theorem not_und_mem_part (l : LStr) (p : LStr)
    (hp : p ∈ splitUnd l) : '_' ∉ p := by
  induction l generalizing p with
  | nil =>
    rw [splitUnd, List.mem_singleton] at hp
    subst hp
    exact List.not_mem_nil _
  | cons a rest ih =>
    rw [splitUnd] at hp
    split at hp
    · rcases List.mem_cons.mp hp with rfl | hp
      · exact List.not_mem_nil _
      · exact ih _ hp
    · rename_i ha
      rcases hq : splitUnd rest with _ | ⟨q, qs⟩
      · exact absurd hq (splitUnd_ne_nil rest)
      · rw [hq] at hp
        rcases List.mem_cons.mp hp with rfl | hp
        · intro hmem
          rcases List.mem_cons.mp hmem with heq | hmem
          · exact ha heq.symm
          · exact ih q (by rw [hq]; exact List.mem_cons_self _ _) hmem
        · exact ih p (by rw [hq]; exact List.mem_cons_of_mem _ hp)

theorem unsplit_splitUnd (l : LStr) : unsplitUnd (splitUnd l) = l := by
  induction l with
  | nil => rfl
  | cons c rest ih =>
    rw [splitUnd]
    split
    · rename_i hc
      rcases hq : splitUnd rest with _ | ⟨q, qs⟩
      · exact absurd hq (splitUnd_ne_nil rest)
      · rw [hq] at ih
        show '_' :: unsplitUnd (q :: qs) = c :: rest
        rw [ih, hc]
    · rcases hq : splitUnd rest with _ | ⟨q, qs⟩
      · exact absurd hq (splitUnd_ne_nil rest)
      · rw [hq] at ih
        show unsplitUnd ((c :: q) :: qs) = c :: rest
        rcases qs with _ | ⟨q2, qs'⟩
        · show c :: q = c :: rest
          rw [show q = rest from ih]
        · show (c :: q) ++ '_' :: unsplitUnd (q2 :: qs') = c :: rest
          rw [List.cons_append]
          rw [show q ++ '_' :: unsplitUnd (q2 :: qs') = rest from ih]

theorem trailUnd_eq_getLast? (l : LStr) :
    leadUnd l.reverse = decide (l.getLast? = some '_') := by
  rw [leadUnd_eq_head?, List.head?_reverse]

theorem splitUnd_cons_ne (d : Char) (rest : LStr) (hd : d ≠ '_') :
    ∃ p ps, splitUnd (d :: rest) = (d :: p) :: ps := by
  rw [splitUnd]
  rw [if_neg hd]
  rcases hq : splitUnd rest with _ | ⟨q, qs⟩
  · exact absurd hq (splitUnd_ne_nil rest)
  · exact ⟨q, qs, rfl⟩

theorem parts_tail_ne_nil : ∀ (l : LStr), hasDD l = false →
    l.getLast? ≠ some '_' → ∀ p ∈ (splitUnd l).tail, p ≠ [] := by
  intro l
  induction l with
  | nil =>
    intro _ _ p hp
    rw [splitUnd] at hp
    simp at hp
  | cons c rest ih =>
    intro hdd hlast p hp
    rcases rest with _ | ⟨d, rest'⟩
    · by_cases hc : c = '_'
      · exact absurd (show [c].getLast? = some '_' by rw [hc]; rfl) hlast
      · have hs : splitUnd [c] = [[c]] := by rw [splitUnd, if_neg hc]; rfl
        rw [hs] at hp
        simp at hp
    · have hlast' : (d :: rest').getLast? ≠ some '_' := by
        rwa [List.getLast?_cons_cons] at hlast
      have hdd' : hasDD (d :: rest') = false := hasDD_tail c _ hdd
      rw [splitUnd] at hp
      split at hp
      · rename_i hc
        simp only [List.tail_cons] at hp
        -- parts of (d :: rest'); head part is d :: _, and c = '_' forces d ≠ '_'
        have hd : d ≠ '_' := by
          intro hdeq
          rw [hasDD_cons₂, hc, hdeq] at hdd
          simp at hdd
        obtain ⟨q, qs, hq⟩ := splitUnd_cons_ne d rest' hd
        rw [hq] at hp
        rcases List.mem_cons.mp hp with rfl | hp
        · exact fun hc2 => List.noConfusion hc2
        · exact ih hdd' hlast' p (by rw [hq]; exact hp)
      · rcases hq : splitUnd (d :: rest') with _ | ⟨q, qs⟩
        · exact absurd hq (splitUnd_ne_nil _)
        · rw [hq] at hp
          simp only [List.tail_cons] at hp
          exact ih hdd' hlast' p (by rw [hq]; exact hp)

theorem parts_ne_nil (l : LStr) (hne : l ≠ []) (hlead : leadUnd l = false)
    (htrail : leadUnd l.reverse = false) (hdd : hasDD l = false) :
    ∀ p ∈ splitUnd l, p ≠ [] := by
  have hlast : l.getLast? ≠ some '_' := by
    rw [trailUnd_eq_getLast?] at htrail
    intro hc
    rw [hc] at htrail
    simp at htrail
  intro p hp
  rcases l with _ | ⟨c, rest⟩
  · exact absurd rfl hne
  · have hc : c ≠ '_' := by
      rw [leadUnd] at hlead
      simpa using hlead
    obtain ⟨q, qs, hq⟩ := splitUnd_cons_ne c rest hc
    rw [hq] at hp
    rcases List.mem_cons.mp hp with rfl | hp
    · exact fun hc2 => List.noConfusion hc2
    · exact parts_tail_ne_nil (c :: rest) hdd hlast p (by rw [hq]; exact hp)

theorem splitUnd_len_one (l : LStr) (h : (splitUnd l).length = 1) :
    ∀ c ∈ l, c ≠ '_' := by
  induction l with
  | nil => intro c hc; simp at hc
  | cons a rest ih =>
    rw [splitUnd] at h
    split at h
    · rw [List.length_cons] at h
      have := splitUnd_ne_nil rest
      have hlen := List.length_pos.mpr this
      omega
    · rename_i ha
      rcases hq : splitUnd rest with _ | ⟨q, qs⟩
      · exact absurd hq (splitUnd_ne_nil rest)
      · rw [hq] at h
        rw [List.length_cons] at h
        intro c hc
        rcases List.mem_cons.mp hc with rfl | hc
        · exact ha
        · exact ih (by rw [hq, List.length_cons]; simpa using h) c hc

theorem joinFrom_cons (res p : LStr) (ps : List LStr) :
    joinFrom res (p :: ps)
      = joinFrom (res ++ (if res.isEmpty then [] else ['_']) ++ p) ps := by
  rw [joinFrom, List.foldl_cons, ← joinFrom]

theorem truncLoop_length_le (maxLen : Nat) :
    ∀ (ps : List LStr) (res : LStr), res.length ≤ maxLen →
      (KeyValidator.truncLoop maxLen ps res).length ≤ maxLen := by
  intro ps
  induction ps with
  | nil => intro res h; exact h
  | cons p ps ih =>
    intro res hres
    rw [KeyValidator.truncLoop]
    split
    · rename_i hfit
      apply ih
      rcases res with _ | ⟨r0, res'⟩ <;>
        simp only [List.isEmpty_nil, List.isEmpty_cons, if_true, if_false,
          List.length_append, List.length_cons, List.length_nil] at hfit ⊢ <;>
        simp <;> omega
    · rename_i hfit
      simp only
      split
      · rename_i hrem
        have htake := List.length_take_le
          (((maxLen : Int) - res.length - 1).toNat) p
        rcases res with _ | ⟨r0, res'⟩ <;>
          simp only [List.isEmpty_nil, List.isEmpty_cons, if_true, if_false,
            List.length_append, List.length_cons, List.length_nil] at hrem htake ⊢ <;>
          simp <;> omega
      · exact hres

theorem joinFrom_of_ne_nil : ∀ (ps : List LStr) (r : LStr), r ≠ [] →
    joinFrom r ps = r ++ glueParts ps := by
  intro ps
  induction ps with
  | nil =>
    intro r _
    rw [joinFrom, glueParts]
    simp
  | cons p ps ih =>
    intro r hr
    rw [joinFrom_cons]
    rw [if_neg (by simpa [List.isEmpty_iff] using hr)]
    rw [ih _ (by simp [hr])]
    simp [glueParts, List.append_assoc]

theorem truncLoop_cases (maxLen : Nat) :
    ∀ (ps : List LStr) (res : LStr),
      KeyValidator.truncLoop maxLen ps res = joinFrom res ps ∨
      maxLen - 1 ≤ (KeyValidator.truncLoop maxLen ps res).length := by
  intro ps
  induction ps with
  | nil => intro res; left; rfl
  | cons p ps ih =>
    intro res
    rw [KeyValidator.truncLoop]
    split
    · rcases ih (res ++ (if res.isEmpty then [] else ['_']) ++ p) with h | h
      · left
        rw [joinFrom_cons]
        exact h
      · right; exact h
    · rename_i hfit
      simp only
      split
      · rename_i hrem
        right
        rcases res with _ | ⟨r0, res'⟩ <;>
          simp only [List.isEmpty_nil, List.isEmpty_cons, if_true, if_false,
            List.length_append, List.length_take,
            List.length_cons, List.length_nil] at hfit hrem ⊢ <;>
          omega
      · rename_i hrem
        right
        simp only [not_lt] at hrem
        omega

theorem leadUnd_false_of_no_und (l : LStr) (h : ∀ c ∈ l, c ≠ '_') :
    leadUnd l = false := by
  rw [leadUnd_eq_head?]
  rcases hx : l.head? with _ | c
  · rfl
  · have hm : c ∈ l := List.mem_of_mem_head? (by rw [hx]; rfl)
    simp only [Option.some.injEq, decide_eq_false_iff_not]
    exact h c hm

theorem trailUnd_false_of_no_und (l : LStr) (h : ∀ c ∈ l, c ≠ '_') :
    leadUnd l.reverse = false :=
  leadUnd_false_of_no_und _ fun c hc => h c (List.mem_reverse.mp hc)

theorem goodRes_no_und (l : LStr) (h : ∀ c ∈ l, isKeyChar c = true ∧ c ≠ '_') :
    GoodRes l :=
  ⟨fun c hc => (h c hc).1, hasDD_false_of_no_und l (fun c hc => (h c hc).2),
   leadUnd_false_of_no_und l (fun c hc => (h c hc).2),
   trailUnd_false_of_no_und l (fun c hc => (h c hc).2)⟩

theorem hasDD_und_cons (b : LStr) (hb : ∀ c ∈ b, c ≠ '_') :
    hasDD ('_' :: b) = false := by
  rcases b with _ | ⟨c, b'⟩
  · rfl
  · rw [hasDD_cons₂, decide_eq_false (hb c (by simp))]
    simp only [Bool.and_false, Bool.false_or]
    exact hasDD_false_of_no_und _ hb

theorem hasDD_append_und (b : LStr) (hb : ∀ c ∈ b, c ≠ '_') :
    ∀ (a : LStr), hasDD a = false → a.getLast? ≠ some '_' →
      hasDD (a ++ '_' :: b) = false := by
  intro a
  induction a with
  | nil =>
    intro _ _
    rw [List.nil_append]
    exact hasDD_und_cons b hb
  | cons x a ih =>
    intro ha hlast
    rcases a with _ | ⟨y, a'⟩
    · have hx : decide (x = '_') = false := by
        apply decide_eq_false
        intro hc
        exact hlast (by rw [hc]; rfl)
      rw [List.cons_append, List.nil_append, hasDD_cons₂, hx]
      simp only [Bool.false_and, Bool.false_or]
      exact hasDD_und_cons b hb
    · rw [hasDD_cons₂] at ha
      simp only [Bool.or_eq_false_iff] at ha
      obtain ⟨h1, h2⟩ := ha
      have hlast' : (y :: a').getLast? ≠ some '_' := by
        rwa [List.getLast?_cons_cons] at hlast
      have hih := ih h2 hlast'
      rw [List.cons_append] at hih
      rw [List.cons_append, List.cons_append, hasDD_cons₂, h1]
      simp only [Bool.false_or]
      exact hih

theorem goodRes_extend (res p : LStr) (hres : GoodRes res)
    (hp : p ≠ []) (hpc : ∀ c ∈ p, isKeyChar c = true ∧ c ≠ '_') :
    GoodRes (res ++ (if res.isEmpty then [] else ['_']) ++ p) := by
  rcases res with _ | ⟨r, res'⟩
  · simpa using goodRes_no_und p hpc
  · obtain ⟨hchars, hdd, hlead, htrail⟩ := hres
    have hins : (r :: res') ++ (if (r :: res').isEmpty then [] else ['_']) ++ p
        = (r :: res') ++ '_' :: p := by simp
    rw [hins]
    have hg : (r :: res').getLast? ≠ some '_' := by
      have ht := trailUnd_eq_getLast? (r :: res')
      rw [htrail] at ht
      intro hc
      rw [hc] at ht
      simp at ht
    refine ⟨?_, ?_, ?_, ?_⟩
    · intro c hc
      rcases List.mem_append.mp hc with h | h
      · exact hchars c h
      · rcases List.mem_cons.mp h with rfl | h
        · decide
        · exact (hpc c h).1
    · exact hasDD_append_und p (fun c hc => (hpc c hc).2) _ hdd hg
    · rw [List.cons_append, leadUnd]
      rw [leadUnd] at hlead
      exact hlead
    · rw [trailUnd_eq_getLast?]
      have h1 : ((r :: res') ++ '_' :: p).getLast? = ('_' :: p).getLast? :=
        List.getLast?_append_of_ne_nil _ (fun hc => List.noConfusion hc)
      have h2 : ('_' :: p).getLast? = p.getLast? := by
        show (['_'] ++ p).getLast? = p.getLast?
        exact List.getLast?_append_of_ne_nil _ hp
      rw [h1, h2]
      rcases hx : p.getLast? with _ | c
      · rfl
      · have hm : c ∈ p := by
          obtain ⟨hh, hx2⟩ := List.mem_getLast?_eq_getLast (l := p) (x := c) (by rw [hx]; rfl)
          rw [hx2]
          exact List.getLast_mem hh
        simp only [Option.some.injEq, decide_eq_false_iff_not]
        exact (hpc c hm).2

theorem truncLoop_good (maxLen : Nat) :
    ∀ (ps : List LStr) (res : LStr),
      (∀ p ∈ ps, p ≠ [] ∧ ∀ c ∈ p, isKeyChar c = true ∧ c ≠ '_') →
      GoodRes res → GoodRes (KeyValidator.truncLoop maxLen ps res) := by
  intro ps
  induction ps with
  | nil => intro res _ h; exact h
  | cons p ps ih =>
    intro res hps hres
    obtain ⟨hp, hpc⟩ := hps p (by simp)
    rw [KeyValidator.truncLoop]
    split
    · exact ih _ (fun q hq => hps q (List.mem_cons_of_mem _ hq))
        (goodRes_extend res p hres hp hpc)
    · simp only
      split
      · rename_i hrem
        have htne : p.take (((maxLen : Int) - res.length - 1).toNat) ≠ [] := by
          rcases p with _ | ⟨c, p'⟩
          · exact absurd rfl hp
          · rcases hm : ((maxLen : Int) - res.length - 1).toNat with _ | m
            · exfalso; omega
            · rw [List.take_succ_cons]
              exact fun hc => List.noConfusion hc
        have htc : ∀ c ∈ p.take (((maxLen : Int) - res.length - 1).toNat),
            isKeyChar c = true ∧ c ≠ '_' :=
          fun c hc => hpc c (List.mem_of_mem_take hc)
        exact goodRes_extend res _ hres htne htc
      · exact hres

theorem unsplit_eq_glue : ∀ (ps : List LStr) (p : LStr),
    unsplitUnd (p :: ps) = p ++ glueParts ps := by
  intro ps
  induction ps with
  | nil => intro p; simp [unsplitUnd, glueParts]
  | cons q ps ih =>
    intro p
    show p ++ '_' :: unsplitUnd (q :: ps) = p ++ glueParts (q :: ps)
    rw [ih q]
    simp [glueParts, List.append_assoc]

theorem joinFrom_nil_cons (p : LStr) (ps : List LStr) (hp : p ≠ []) :
    joinFrom [] (p :: ps) = p ++ glueParts ps := by
  have h : joinFrom [] (p :: ps) = joinFrom p ps := by
    rw [joinFrom_cons]
    congr 1
  rw [h]
  exact joinFrom_of_ne_nil ps p hp

theorem truncateVal_good (k : LStr) (hne : k ≠ []) (hG : GoodRes k)
    (hlen : 100 < k.length) :
    GoodRes (KeyValidator.truncateKey 100 k) ∧
    2 ≤ (KeyValidator.truncateKey 100 k).length ∧
    (KeyValidator.truncateKey 100 k).length ≤ 100 := by
  obtain ⟨hchars, hdd, hlead, htrail⟩ := hG
  rw [KeyValidator.truncateKey]
  rw [if_neg (by omega)]
  simp only
  by_cases hp1 : (splitUnd k).length = 1
  · rw [if_pos hp1]
    have hnu : ∀ c ∈ k, c ≠ '_' := splitUnd_len_one k hp1
    have htk : (k.take 100).length = 100 := by
      rw [List.length_take]
      omega
    refine ⟨goodRes_no_und _ ?_, by omega, by omega⟩
    intro c hc
    have hm := List.mem_of_mem_take hc
    exact ⟨hchars c hm, hnu c hm⟩
  · rw [if_neg hp1]
    have hparts : ∀ p ∈ splitUnd k,
        p ≠ [] ∧ ∀ c ∈ p, isKeyChar c = true ∧ c ≠ '_' := by
      intro p hp
      refine ⟨parts_ne_nil k hne hlead htrail hdd p hp, ?_⟩
      intro c hc
      refine ⟨hchars c (mem_part_mem k p c hp hc), ?_⟩
      intro hc2
      exact not_und_mem_part k p hp (hc2 ▸ hc)
    have hGr : GoodRes (KeyValidator.truncLoop 100 (splitUnd k) []) :=
      truncLoop_good 100 (splitUnd k) [] hparts (goodRes_no_und [] (by simp))
    have hle : (KeyValidator.truncLoop 100 (splitUnd k) []).length ≤ 100 :=
      truncLoop_length_le 100 (splitUnd k) [] (by simp)
    have hge : 99 ≤ (KeyValidator.truncLoop 100 (splitUnd k) []).length := by
      rcases truncLoop_cases 100 (splitUnd k) [] with h | h
      · exfalso
        rcases hq : splitUnd k with _ | ⟨p, ps⟩
        · exact splitUnd_ne_nil k hq
        · have hpne : p ≠ [] := (hparts p (by rw [hq]; simp)).1
          rw [hq, joinFrom_nil_cons p ps hpne, ← unsplit_eq_glue, ← hq,
            unsplit_splitUnd] at h
          rw [h] at hle
          omega
      · exact h
    have hie : ¬ (KeyValidator.truncLoop 100 (splitUnd k) []).isEmpty = true := by
      rw [List.isEmpty_iff]
      intro hc
      rw [hc] at hge
      simp at hge
    rw [if_neg hie]
    exact ⟨hGr, by omega, hle⟩

theorem allUnd_false_of_lead (l : LStr) (hne : l ≠ []) (hlead : leadUnd l = false) :
    allUnd l = false := by
  rcases l with _ | ⟨c, rest⟩
  · exact absurd rfl hne
  · rw [leadUnd] at hlead
    simp [allUnd, List.all_cons, hlead]

theorem isDigit_ne_und (c : Char) (h : isDigitChar c = true) : c ≠ '_' := by
  intro hc
  rw [hc] at h
  exact absurd h (by decide)

theorem allDigits_mem (x : LStr) (h : allDigits x = true) :
    ∀ c ∈ x, isDigitChar c = true := by
  rw [allDigits, Bool.and_eq_true] at h
  exact fun c hc => List.all_eq_true.mp h.2 c hc

theorem leadUnd_append (a b : LStr) (ha : a ≠ []) :
    leadUnd (a ++ b) = leadUnd a := by
  rcases a with _ | ⟨c, a'⟩
  · exact absurd rfl ha
  · rw [List.cons_append, leadUnd, leadUnd]

theorem fixPatterns_eq (x : LStr) (hne : x ≠ []) (hG : GoodRes x) :
    KeyValidator.fixPatterns x
      = if allDigits x then "key_".toList ++ x else x := by
  obtain ⟨hchars, hdd, hlead, htrail⟩ := hG
  have hau : allUnd x = false := allUnd_false_of_lead x hne hlead
  by_cases had : allDigits x = true
  · have hx_nound : ∀ c ∈ x, c ≠ '_' :=
      fun c hc => isDigit_ne_und c (allDigits_mem x had c hc)
    have hdd2 : hasDD ("key_".toList ++ x) = false := by
      rw [show ("key_".toList ++ x) = ("key".toList ++ '_' :: x) from rfl]
      exact hasDD_append_und x hx_nound "key".toList (by decide) (by decide)
    have hlead2 : leadUnd ("key_".toList ++ x) = false := by
      rw [leadUnd_append _ _ (by decide)]
      decide
    have htrail2 : leadUnd ("key_".toList ++ x).reverse = false := by
      rw [trailUnd_eq_getLast?, List.getLast?_append_of_ne_nil _ hne]
      rcases hgl : x.getLast? with _ | c
      · rfl
      · obtain ⟨hh, hx2⟩ :=
          List.mem_getLast?_eq_getLast (l := x) (x := c) (by rw [hgl]; rfl)
        simp only [Option.some.injEq, decide_eq_false_iff_not]
        intro hcu
        exact hx_nound c (by rw [hx2]; exact List.getLast_mem hh) hcu
    have hlt2 : leadTrailUnd ("key_".toList ++ x) = false := by
      rw [leadTrailUnd, hlead2, htrail2]
      decide
    have hdd2c : hasDD ('k' :: 'e' :: 'y' :: '_' :: x) = false := hdd2
    have hlt2c : leadTrailUnd ('k' :: 'e' :: 'y' :: '_' :: x) = false := hlt2
    simp [KeyValidator.fixPatterns, KeyValidator.fixAllDigits, hau, had,
      hdd2c, hlt2c]
  · have had' : allDigits x = false := by
      cases hb : allDigits x
      · rfl
      · exact absurd hb had
    have hlt : leadTrailUnd x = false := by
      rw [leadTrailUnd, hlead, htrail]
      decide
    simp [KeyValidator.fixPatterns, hau, had', hdd, hlt]

theorem fixPatterns_good (x : LStr) (hne : x ≠ []) (hG : GoodRes x) :
    GoodRes (KeyValidator.fixPatterns x) ∧ KeyValidator.fixPatterns x ≠ [] := by
  rw [fixPatterns_eq x hne hG]
  by_cases had : allDigits x = true
  · rw [if_pos had]
    obtain ⟨hchars, hdd, hlead, htrail⟩ := hG
    have hx_nound : ∀ c ∈ x, c ≠ '_' :=
      fun c hc => isDigit_ne_und c (allDigits_mem x had c hc)
    refine ⟨⟨?_, ?_, ?_, ?_⟩, ?_⟩
    · intro c hc
      rcases List.mem_append.mp hc with h | h
      · have hk : ∀ d ∈ "key_".toList, isKeyChar d = true := by decide
        exact hk c h
      · exact hchars c h
    · rw [show ("key_".toList ++ x) = ("key".toList ++ '_' :: x) from rfl]
      exact hasDD_append_und x hx_nound "key".toList (by decide) (by decide)
    · rw [leadUnd_append _ _ (by decide)]
      decide
    · rw [trailUnd_eq_getLast?, List.getLast?_append_of_ne_nil _ hne]
      rcases hgl : x.getLast? with _ | c
      · rfl
      · obtain ⟨hh, hx2⟩ :=
          List.mem_getLast?_eq_getLast (l := x) (x := c) (by rw [hgl]; rfl)
        simp only [Option.some.injEq, decide_eq_false_iff_not]
        intro hcu
        exact hx_nound c (by rw [hx2]; exact List.getLast_mem hh) hcu
    · intro hc
      exact List.noConfusion (show 'k' :: ("ey_".toList ++ x) = ([] : LStr) from hc)
  · rw [if_neg had]
    exact ⟨hG, hne⟩

theorem padKey_two_singleton (c : Char) :
    KeyValidator.padKey 2 [c] = c :: '_' :: "key".toList := rfl

theorem isReserved_no_und (k : LStr) (h : '_' ∈ k) :
    KeyValidator.isReserved k = false := by
  rw [KeyValidator.isReserved, List.any_eq_false]
  intro w hw
  intro hc
  have heq : w.toList = k := of_decide_eq_true hc
  have hnone : ∀ w ∈ KeyValidator.reservedWords, '_' ∉ w.toList := by decide
  exact hnone w hw (by rw [heq]; exact h)

theorem isReserved_short (k : LStr) (h : KeyValidator.isReserved k = true) :
    k.length ≤ 9 := by
  rw [KeyValidator.isReserved, List.any_eq_true] at h
  obtain ⟨w, hw, hww⟩ := h
  have heq : w.toList = k := of_decide_eq_true hww
  have hlen : ∀ w ∈ KeyValidator.reservedWords, w.toList.length ≤ 9 := by decide
  rw [← heq]
  exact hlen w hw

theorem ensureUniqueness_nil (k : LStr) :
    KeyValidator.ensureUniqueness [] k = k := by
  rw [KeyValidator.ensureUniqueness]
  rw [if_neg (by simp)]

theorem step3_good (n2 : LStr) (hne : n2 ≠ []) (hG : GoodRes n2) :
    GoodRes (if 100 < n2.length then KeyValidator.truncateKey 100 n2 else n2) ∧
    (if 100 < n2.length then KeyValidator.truncateKey 100 n2 else n2) ≠ [] ∧
    (if 100 < n2.length then KeyValidator.truncateKey 100 n2 else n2).length ≤ 100 := by
  by_cases h : 100 < n2.length
  · rw [if_pos h]
    obtain ⟨hg, h2, h100⟩ := truncateVal_good n2 hne hG h
    refine ⟨hg, ?_, h100⟩
    intro hc
    rw [hc] at h2
    simp at h2
  · rw [if_neg h]
    exact ⟨hG, hne, by omega⟩

theorem step4_good (n3 : LStr) (hne : n3 ≠ []) (hG : GoodRes n3)
    (hle : n3.length ≤ 100) :
    GoodRes (if n3.length < 2 then KeyValidator.padKey 2 n3 else n3) ∧
    2 ≤ (if n3.length < 2 then KeyValidator.padKey 2 n3 else n3).length ∧
    (if n3.length < 2 then KeyValidator.padKey 2 n3 else n3).length ≤ 100 := by
  by_cases h : n3.length < 2
  · rw [if_pos h]
    have hl1 : n3.length = 1 := by
      have hpos := List.length_pos.mpr hne
      omega
    obtain ⟨c, hc⟩ := List.length_eq_one.mp hl1
    subst hc
    rw [padKey_two_singleton c]
    obtain ⟨hchars, hdd, hlead, htrail⟩ := hG
    have hcc : isKeyChar c = true := hchars c (by simp)
    have hcu : decide (c = '_') = false := by
      rw [leadUnd] at hlead
      exact hlead
    have hlen5 : (c :: '_' :: "key".toList).length = 5 := rfl
    refine ⟨⟨?_, ?_, ?_, ?_⟩, by omega, by omega⟩
    · intro d hd
      rcases List.mem_cons.mp hd with rfl | hd
      · exact hcc
      · have hk : ∀ d ∈ ('_' :: "key".toList), isKeyChar d = true := by decide
        exact hk d hd
    · rw [hasDD_cons₂, hcu]
      simp only [Bool.false_and, Bool.false_or]
      decide
    · rw [leadUnd]
      exact hcu
    · rw [trailUnd_eq_getLast?]
      have hg : (c :: '_' :: "key".toList).getLast? = some 'y' := by
        show ([c] ++ '_' :: "key".toList).getLast? = some 'y'
        rw [List.getLast?_append_of_ne_nil _ (fun hcn => List.noConfusion hcn)]
        decide
      rw [hg]
      decide
  · rw [if_neg h]
    exact ⟨hG, by omega, hle⟩

theorem step5_good (n4 : LStr) (hG : GoodRes n4) (h2 : 2 ≤ n4.length)
    (hle : n4.length ≤ 100) :
    GoodRes (if KeyValidator.isReserved (n4.map Char.toLower)
        then n4 ++ "_key".toList else n4) ∧
    2 ≤ (if KeyValidator.isReserved (n4.map Char.toLower)
        then n4 ++ "_key".toList else n4).length ∧
    (if KeyValidator.isReserved (n4.map Char.toLower)
        then n4 ++ "_key".toList else n4).length ≤ 100 ∧
    KeyValidator.isReserved (if KeyValidator.isReserved (n4.map Char.toLower)
        then n4 ++ "_key".toList else n4) = false := by
  obtain ⟨hchars, hdd, hlead, htrail⟩ := hG
  have hmap : n4.map Char.toLower = n4 := map_toLower_id n4 hchars
  have hne : n4 ≠ [] := by
    intro hc
    rw [hc] at h2
    simp at h2
  by_cases h : KeyValidator.isReserved (n4.map Char.toLower) = true
  · rw [if_pos h]
    rw [hmap] at h
    have hshort : n4.length ≤ 9 := isReserved_short n4 h
    have heq : (n4 ++ "_key".toList) = (n4 ++ '_' :: "key".toList) := rfl
    have hglast : (n4 ++ "_key".toList).getLast? = some 'y' := by
      rw [List.getLast?_append_of_ne_nil _ (fun hcn => List.noConfusion hcn)]
      decide
    have hlen : (n4 ++ "_key".toList).length = n4.length + 4 := by
      rw [List.length_append]
      rfl
    have hgg : (n4 ++ "_key".toList).getLast? ≠ some '_' := by
      rw [hglast]
      decide
    refine ⟨⟨?_, ?_, ?_, ?_⟩, by omega, by omega, ?_⟩
    · intro d hd
      rcases List.mem_append.mp hd with hm | hm
      · exact hchars d hm
      · have hk : ∀ d ∈ "_key".toList, isKeyChar d = true := by decide
        exact hk d hm
    · rw [heq]
      have hgl : n4.getLast? ≠ some '_' := by
        have ht := trailUnd_eq_getLast? n4
        rw [htrail] at ht
        intro hcn
        rw [hcn] at ht
        simp at ht
      have hkc : ∀ d ∈ "key".toList, d ≠ '_' := by decide
      exact hasDD_append_und "key".toList hkc n4 hdd hgl
    · rw [leadUnd_append _ _ hne]
      exact hlead
    · rw [trailUnd_eq_getLast?, hglast]
      decide
    · apply isReserved_no_und
      apply List.mem_append.mpr
      right
      decide
  · rw [if_neg h]
    have hf : KeyValidator.isReserved (n4.map Char.toLower) = false := by
      cases hb : KeyValidator.isReserved (n4.map Char.toLower)
      · rfl
      · exact absurd hb h
    rw [hmap] at hf
    exact ⟨⟨hchars, hdd, hlead, htrail⟩, h2, hle, hf⟩

theorem normStagesH_canon (x : LStr) (hne : x ≠ []) (hG : GoodRes x) :
    normStagesH x ≠ [] ∧ GoodRes (normStagesH x) ∧
    2 ≤ (normStagesH x).length ∧ (normStagesH x).length ≤ 100 ∧
    KeyValidator.isReserved (normStagesH x) = false := by
  obtain ⟨hg2, hne2⟩ := fixPatterns_good x hne hG
  obtain ⟨hg3, hne3, hle3⟩ := step3_good (KeyValidator.fixPatterns x) hne2 hg2
  obtain ⟨hg4, h24, hle4⟩ := step4_good _ hne3 hg3 hle3
  obtain ⟨hg5, h25, hle5, hres5⟩ := step5_good _ hg4 h24 hle4
  refine ⟨?_, hg5, h25, hle5, hres5⟩
  have h25c : 2 ≤ (normStagesH x).length := h25
  intro hc
  rw [hc] at h25c
  simp at h25c

theorem normStagesH_fixpoint (k : LStr) (hne : k ≠ []) (hG : GoodRes k)
    (hlen2 : 2 ≤ k.length) (hlen100 : k.length ≤ 100)
    (hdig : allDigits k = false) (hres : KeyValidator.isReserved k = false) :
    normStagesH k = k := by
  obtain ⟨hchars, hdd, hlead, htrail⟩ := hG
  have h2 : KeyValidator.fixPatterns k = k := by
    rw [fixPatterns_eq k hne ⟨hchars, hdd, hlead, htrail⟩]
    simp [hdig]
  simp only [normStagesH, h2]
  rw [if_neg (show ¬ 100 < k.length by omega)]
  rw [if_neg (show ¬ k.length < 2 by omega)]
  rw [map_toLower_id k hchars, hres]
  simp

theorem sanitize_canon_self (k : LStr) (hchars : ∀ c ∈ k, isKeyChar c = true)
    (hdd : hasDD k = false) (hlead : leadUnd k = false)
    (htrail : leadUnd k.reverse = false) :
    KeyValidator.sanitizeKey (k.map Char.toLower) = k := by
  rw [map_toLower_id k hchars, KeyValidator.sanitizeKey]
  have hmap : (k.map fun c => if isKeyChar c then c else '_') = k := by
    have h1 : (k.map fun c => if isKeyChar c then c else '_') = k.map id :=
      List.map_congr_left fun c hc => by rw [if_pos (hchars c hc)]; rfl
    rw [h1, List.map_id]
  rw [hmap, collapseUnd_eq_self k hdd, trimUnd_eq_self k hlead htrail]

theorem normalizeKey_eq_stages (used : List LStr) (s : LStr) (hsne : s ≠ []) :
    KeyValidator.normalizeKey used s
      = KeyValidator.ensureUniqueness used
          (normStagesH (KeyValidator.sanitizeKey (s.map Char.toLower))) := by
  rcases s with _ | ⟨c, s'⟩
  · exact absurd rfl hsne
  · rfl

theorem normalizeKey_fixpoint (k : LStr) (hne : k ≠ []) (hG : GoodRes k)
    (hlen2 : 2 ≤ k.length) (hlen100 : k.length ≤ 100)
    (hdig : allDigits k = false) (hres : KeyValidator.isReserved k = false) :
    KeyValidator.normalizeKey [] k = k := by
  obtain ⟨hchars, hdd, hlead, htrail⟩ := hG
  rw [normalizeKey_eq_stages [] k hne,
    sanitize_canon_self k hchars hdd hlead htrail,
    normStagesH_fixpoint k hne ⟨hchars, hdd, hlead, htrail⟩ hlen2 hlen100 hdig hres,
    ensureUniqueness_nil]

/-- C3 (amended): `normalizeKey` is idempotent whenever sanitizing the
lower-cased input is nonempty, the first normalization result is not all
digits, and the tracked used-key set is empty: the first pass then lands on
a canonical key (allowed characters, no double or leading/trailing
underscore, length between 2 and 100, not reserved, not all digits), which
every stage of a second pass leaves unchanged. -/
theorem c3_normalize_idempotent_amended (s : LStr)
    (h1 : KeyValidator.sanitizeKey (s.map Char.toLower) ≠ [])
    (h2 : allDigits (KeyValidator.normalizeKey [] s) = false) :
    KeyValidator.normalizeKey [] (KeyValidator.normalizeKey [] s)
      = KeyValidator.normalizeKey [] s := by
  have hsne : s ≠ [] := by
    intro hc
    rw [hc] at h1
    exact h1 rfl
  have hkey : KeyValidator.normalizeKey [] s
      = normStagesH (KeyValidator.sanitizeKey (s.map Char.toLower)) := by
    rw [normalizeKey_eq_stages [] s hsne, ensureUniqueness_nil]
  have hGx : GoodRes (KeyValidator.sanitizeKey (s.map Char.toLower)) :=
    ⟨sanitizeKey_chars _, sanitizeKey_noDD _, sanitizeKey_lead _, sanitizeKey_trail _⟩
  obtain ⟨hne5, hg5, h25, hle5, hres5⟩ := normStagesH_canon _ h1 hGx
  rw [hkey] at h2 ⊢
  exact normalizeKey_fixpoint _ hne5 hg5 h25 hle5 h2 hres5

theorem c3_normalize_idempotent_amended_witness :
    KeyValidator.sanitizeKey (("hello world!".toList).map Char.toLower) ≠ [] ∧
    allDigits (KeyValidator.normalizeKey [] "hello world!".toList) = false ∧
    KeyValidator.normalizeKey []
        (KeyValidator.normalizeKey [] "hello world!".toList)
      = KeyValidator.normalizeKey [] "hello world!".toList :=
  ⟨by decide, by decide, c3_normalize_idempotent_amended _ (by decide) (by decide)⟩

end I18n
